import Mathlib

/-!
Verification of the ItemShop storefront-catalog normalization pipeline
(`ItemShop.py`) against its natural-language specification.

The Python code is shallowly embedded: JSON values become an inductive
type, Python's attribute/key accesses, truthiness, iteration and ordering
become explicit Lean functions, and code that can raise a Python exception
is modelled in the `Except PyErr` monad.  Pure "total model" counterparts
(suffix `T` / `P`) are related to the monadic embedding by equations proved
under explicit well-formedness hypotheses.
-/

/-- A parsed JSON value, as produced by Python's `json.loads`:
`None`, booleans, numbers, strings, lists and dicts (dicts keep insertion
order and have unique keys; numbers are modelled as integers, the pipeline
never does arithmetic on JSON numbers). -/
inductive JSON where
  | null : JSON
  | bool : Bool → JSON
  | num : Int → JSON
  | str : String → JSON
  | arr : List JSON → JSON
  | obj : List (String × JSON) → JSON
deriving Repr

/-- Python exception kinds the embedded code can raise. -/
inductive PyErr where
  | attributeError : PyErr
  | typeError : PyErr
  | valueError : PyErr
deriving Repr, DecidableEq

mutual

/-- Structural equality of JSON values (Python `==` restricted to values of
the same shape, which is all the pipeline compares). -/
def jeq : JSON → JSON → Bool
  | .null, .null => true
  | .bool a, .bool b => a == b
  | .num a, .num b => a == b
  | .str a, .str b => a == b
  | .arr a, .arr b => jeqList a b
  | .obj a, .obj b => jeqKVs a b
  | _, _ => false

/-- Elementwise `jeq` on lists of values. -/
def jeqList : List JSON → List JSON → Bool
  | [], [] => true
  | x :: xs, y :: ys => jeq x y && jeqList xs ys
  | _, _ => false

/-- Elementwise `jeq` on key-value lists. -/
def jeqKVs : List (String × JSON) → List (String × JSON) → Bool
  | [], [] => true
  | (k1, v1) :: xs, (k2, v2) :: ys => k1 == k2 && jeq v1 v2 && jeqKVs xs ys
  | _, _ => false

end

mutual

theorem jeq_iff : ∀ a b : JSON, jeq a b = true ↔ a = b
  | .null, b => by cases b <;> simp [jeq]
  | .bool x, b => by cases b <;> simp [jeq]
  | .num x, b => by cases b <;> simp [jeq]
  | .str x, b => by cases b <;> simp [jeq]
  | .arr l, b => by
    cases b <;> simp [jeq]
    exact jeqList_iff l _
  | .obj kvs, b => by
    cases b <;> simp [jeq]
    exact jeqKVs_iff kvs _

theorem jeqList_iff : ∀ a b : List JSON, jeqList a b = true ↔ a = b
  | [], b => by cases b <;> simp [jeqList]
  | x :: xs, b => by
    cases b with
    | nil => simp [jeqList]
    | cons y ys => simp [jeqList, jeq_iff x y, jeqList_iff xs ys]

theorem jeqKVs_iff : ∀ a b : List (String × JSON), jeqKVs a b = true ↔ a = b
  | [], b => by cases b <;> simp [jeqKVs]
  | (k, v) :: xs, b => by
    cases b with
    | nil => simp [jeqKVs]
    | cons y ys =>
      cases y with
      | mk k2 v2 => simp [jeqKVs, jeq_iff v v2, jeqKVs_iff xs ys, Prod.ext_iff, and_assoc]

end

instance : DecidableEq JSON := fun a b => decidable_of_iff _ (jeq_iff a b)

/-! ### Python string comparison

Python compares strings lexicographically by Unicode code point; the
pipeline relies on this for sorting and taking minima of ISO-8601 dates.
-/

/-- Lexicographic strict comparison of character lists by code point. -/
def lexLt : List Char → List Char → Bool
  | [], [] => false
  | [], _ :: _ => true
  | _ :: _, [] => false
  | a :: as, b :: bs =>
    if a.val.toNat < b.val.toNat then true
    else if b.val.toNat < a.val.toNat then false
    else lexLt as bs

/-- Python `a < b` on strings. -/
def strLt (a b : String) : Bool := lexLt a.data b.data

/-- Python `a <= b` on strings (equivalently `not (b < a)`). -/
def strLe (a b : String) : Bool := !strLt b a

theorem lexLt_irrefl : ∀ l : List Char, lexLt l l = false
  | [] => rfl
  | a :: as => by simp [lexLt, lexLt_irrefl as]

theorem lexLt_trans : ∀ {a b c : List Char},
    lexLt a b = true → lexLt b c = true → lexLt a c = true
  | [], _ :: _, _ :: _, _, _ => rfl
  | a :: as, b :: bs, c :: cs, h1, h2 => by
    simp only [lexLt] at h1 h2 ⊢
    rcases Nat.lt_trichotomy a.val.toNat b.val.toNat with hab | hab | hab <;>
      rcases Nat.lt_trichotomy b.val.toNat c.val.toNat with hbc | hbc | hbc <;>
      simp_all [Nat.lt_asymm, Nat.lt_irrefl] <;>
      first
        | exact Nat.lt_trans hab hbc
        | (constructor <;> omega)
        | exact lexLt_trans h1 h2
        | omega

theorem lexLt_antisymm : ∀ {a b : List Char},
    lexLt a b = false → lexLt b a = false → a = b
  | [], [], _, _ => rfl
  | [], _ :: _, h, _ => by simp [lexLt] at h
  | _ :: _, [], _, h => by simp [lexLt] at h
  | a :: as, b :: bs, h1, h2 => by
    simp only [lexLt] at h1 h2
    rcases Nat.lt_trichotomy a.val.toNat b.val.toNat with hab | hab | hab
    · simp_all
    · have hv : a = b := Char.ext (UInt32.toNat.inj hab)
      subst hv
      simp_all [Nat.lt_irrefl]
      exact lexLt_antisymm h1 h2
    · simp_all [Nat.lt_asymm]

theorem strLt_irrefl (a : String) : strLt a a = false := lexLt_irrefl a.data

theorem strLt_trans {a b c : String} (h1 : strLt a b = true) (h2 : strLt b c = true) :
    strLt a c = true := lexLt_trans h1 h2

theorem strLt_antisymm {a b : String} (h1 : strLt a b = false) (h2 : strLt b a = false) :
    a = b := by
  have := lexLt_antisymm h1 h2
  cases a; cases b; exact congrArg String.mk this

theorem strLe_trans {a b c : String} (h1 : strLe a b = true) (h2 : strLe b c = true) :
    strLe a c = true := by
  simp only [strLe, Bool.not_eq_true'] at h1 h2 ⊢
  cases hca : strLt c a
  · rfl
  · cases hbc : strLt b c
    · have hbc' : b = c := strLt_antisymm hbc h2
      subst hbc'
      rw [h1] at hca
      exact absurd hca (by simp)
    · have : strLt b a = true := strLt_trans hbc hca
      rw [h1] at this
      exact absurd this (by simp)

theorem strLt_total (a b : String) : strLt a b = true ∨ strLe b a = true := by
  cases h : strLt a b
  · right; simp [strLe, h]
  · left; rfl

namespace JSON

/-- Python truthiness of a JSON value (`bool(x)`). -/
def truthy : JSON → Bool
  | .null => false
  | .bool b => b
  | .num n => n != 0
  | .str s => !s.isEmpty
  | .arr l => !l.isEmpty
  | .obj kvs => !kvs.isEmpty

/-- Is this value a Python dict? -/
def isObj : JSON → Bool
  | .obj _ => true
  | _ => false

/-- Is this value a Python list? -/
def isArrVal : JSON → Bool
  | .arr _ => true
  | _ => false

/-- Is this value a Python str? -/
def isStrVal : JSON → Bool
  | .str _ => true
  | _ => false

/-- `j == lit` for a string literal `lit`: Python equality of a JSON value
with a string is true only when the value is that very string. -/
def isStrEq (j : JSON) (lit : String) : Bool :=
  match j with
  | .str s => s == lit
  | _ => false

end JSON

open JSON

/-- `d.get(k)` on a Python value: returns the value (or `None` when the key
is absent) for dicts, raises `AttributeError` otherwise. -/
def pyGet (j : JSON) (k : String) : Except PyErr JSON :=
  match j with
  | .obj kvs => .ok ((kvs.lookup k).getD .null)
  | _ => .error .attributeError

/-- Total dict lookup: the value under `k`, `null` when absent or when the
receiver is not a dict.  Used by the pure total models. -/
def jget (j : JSON) (k : String) : JSON :=
  match j with
  | .obj kvs => (kvs.lookup k).getD .null
  | _ => .null

/-- Python iteration `for v in x`: list elements, characters of a string,
keys of a dict; `TypeError` for anything else. -/
def pyIter : JSON → Except PyErr (List JSON)
  | .arr l => .ok l
  | .str s => .ok (s.toList.map fun c => .str (String.mk [c]))
  | .obj kvs => .ok (kvs.map fun kv => .str kv.1)
  | _ => .error .typeError

/-- Python `len(x)` for sized values, `TypeError` otherwise. -/
def pyLen : JSON → Except PyErr Int
  | .arr l => .ok l.length
  | .str s => .ok s.length
  | .obj kvs => .ok kvs.length
  | _ => .error .typeError

/-- The elements of a value that passed an `isinstance(x, list)` check;
empty for non-lists (mirrors `if isinstance(src, list): ...extend(src)`). -/
def listElems : JSON → List JSON
  | .arr l => l
  | _ => []

/-! ## 4.1 Deep Section Locator (`dig_for_sections`) -/

/-- The fixed alias keys probed for a sections list, in priority order
(`ItemShop.py` line 16). -/
def SECTION_KEYS : List String :=
  ["shopSections", "sections", "sectionList", "ShopSections", "shop_sections"]

/-- The per-node alias probe of `dig_for_sections`: the first alias key in
priority order whose value in the dict is a list, if any. -/
def findAlias (kvs : List (String × JSON)) : Option (List JSON) :=
  SECTION_KEYS.findSome? fun k =>
    match kvs.lookup k with
    | some (.arr l) => some l
    | _ => none

mutual

/-- `dig_for_sections` (`ItemShop.py` lines 14-28): depth-first search for
a list stored under one of the alias keys.  At a dict node the alias keys
are probed first and the found list is returned immediately; otherwise the
dict's values (resp. a list's elements) are searched in order, and a
falsy recursive result (`None` or an empty list) is skipped. -/
def dig_for_sections : JSON → Option (List JSON)
  | .obj kvs =>
    match findAlias kvs with
    | some l => some l
    | none => digKVs kvs
  | .arr l => digList l
  | _ => none

/-- The `for v in obj.values()` loop of `dig_for_sections`. -/
def digKVs : List (String × JSON) → Option (List JSON)
  | [] => none
  | (_, v) :: rest =>
    match dig_for_sections v with
    | some l => if l.isEmpty then digKVs rest else some l
    | none => digKVs rest

/-- The `for v in obj` loop of `dig_for_sections` on a list node. -/
def digList : List JSON → Option (List JSON)
  | [] => none
  | v :: rest =>
    match dig_for_sections v with
    | some l => if l.isEmpty then digList rest else some l
    | none => digList rest

end

/-- The first truthy (non-empty) result among a list of traversal results,
following the spec's words "return the first non-empty result found by this
traversal". -/
def firstTruthyResult : List (Option (List JSON)) → Option (List JSON)
  | [] => none
  | some l :: rest => if l.isEmpty then firstTruthyResult rest else some l
  | none :: rest => firstTruthyResult rest

mutual

/-- The locator as the specification describes it: at each object node the
alias keys are checked in fixed priority order and the first alias-keyed
array is returned immediately (first match wins, no further search);
otherwise the traversal recurses depth-first and the first non-empty
result among the children is returned, not-found otherwise. -/
def locateSpec : JSON → Option (List JSON)
  | .obj kvs =>
    match findAlias kvs with
    | some l => some l
    | none => firstTruthyResult (locateChildren kvs)
  | .arr l => firstTruthyResult (locateElems l)
  | _ => none

/-- Results of the spec traversal over a dict's values, in key order. -/
def locateChildren : List (String × JSON) → List (Option (List JSON))
  | [] => []
  | (_, v) :: rest => locateSpec v :: locateChildren rest

/-- Results of the spec traversal over a list's elements, in order. -/
def locateElems : List JSON → List (Option (List JSON))
  | [] => []
  | v :: rest => locateSpec v :: locateElems rest

end

mutual

theorem dig_eq_locateSpec : (j : JSON) → dig_for_sections j = locateSpec j
  | .null => rfl
  | .bool _ => rfl
  | .num _ => rfl
  | .str _ => rfl
  | .arr l => by
    rw [dig_for_sections, locateSpec, digList_eq l]
  | .obj kvs => by
    rw [dig_for_sections, locateSpec, digKVs_eq kvs]

theorem digKVs_eq : (kvs : List (String × JSON)) →
    digKVs kvs = firstTruthyResult (locateChildren kvs)
  | [] => rfl
  | (k, v) :: rest => by
    rw [digKVs, locateChildren, firstTruthyResult.eq_def]
    rw [dig_eq_locateSpec v, digKVs_eq rest]
    cases locateSpec v <;> simp

theorem digList_eq : (l : List JSON) →
    digList l = firstTruthyResult (locateElems l)
  | [] => rfl
  | v :: rest => by
    rw [digList, locateElems, firstTruthyResult.eq_def]
    rw [dig_eq_locateSpec v, digList_eq rest]
    cases locateSpec v <;> simp

end

/-- C6: the section locator is a depth-first traversal that, at each object
node, checks the alias keys in fixed priority order and returns the first
alias-keyed array immediately, and overall propagates the first non-empty
(truthy) result of the traversal, signalling not-found (a falsy return)
otherwise: `dig_for_sections` coincides with the traversal `locateSpec`
built directly from the specification's words. -/
theorem c6_locator_first_match_depth_first :
    ∀ j : JSON, dig_for_sections j = locateSpec j :=
  dig_eq_locateSpec

/-! ## Python ordering, used by `list.sort` and `min` -/

/-- The numeric value of a Python int/bool, if the value is one
(Python treats `True`/`False` as `1`/`0` in comparisons). -/
def intOf : JSON → Option Int
  | .bool b => some (if b then 1 else 0)
  | .num n => some n
  | _ => none

/-- Python `a < b` on the values the pipeline can compare: strings
lexicographically by code point, ints/bools numerically; every other
combination is modelled as `TypeError` (Python would also order two lists
elementwise, which no claim exercises and no well-formed catalog produces
as a `startDate`). -/
def pyLt (a b : JSON) : Except PyErr Bool :=
  match a, b with
  | .str x, .str y => .ok (strLt x y)
  | _, _ =>
    match intOf a, intOf b with
    | some x, some y => .ok (decide (x < y))
    | _, _ => .error .typeError

/-- Python `min(...)` over a sequence: `ValueError` when empty, otherwise a
left fold that replaces the current best whenever `item < best`. -/
def pyMinAux : JSON → List JSON → Except PyErr JSON
  | cur, [] => .ok cur
  | cur, y :: ys => do
    let lt ← pyLt y cur
    pyMinAux (if lt then y else cur) ys

/-- Python `min` of a list of values. -/
def pyMin : List JSON → Except PyErr JSON
  | [] => .error .valueError
  | x :: xs => pyMinAux x xs

/-! ## 4.5 Section Normalizer: base / metadata resolution
(`ItemShop.py` lines 32-33) -/

/-- `base = sec.get("section") or sec.get("content") or sec`: Python `or`
picks the first truthy operand. -/
def resolveBase (sec : JSON) : Except PyErr JSON := do
  let s ← pyGet sec "section"
  if truthy s then return s
  let c ← pyGet sec "content"
  if truthy c then return c
  return sec

/-- `meta = base.get("metadata") or sec.get("metadata") or {}`. -/
def resolveMeta (sec base : JSON) : Except PyErr JSON := do
  let m ← pyGet base "metadata"
  if truthy m then return m
  let m2 ← pyGet sec "metadata"
  if truthy m2 then return m2
  return .obj []

/-- The `get` helper lambda of `normalize_section` (line 35): the value of
the first of `keys` present in `base` when `base` is a dict, else `None`. -/
def resolveField (base : JSON) (keys : List String) : JSON :=
  match base with
  | .obj kvs => (keys.findSome? fun k => kvs.lookup k).getD .null
  | _ => .null

/-! ## 4.3 Validity Window Aggregator: candidate collection
(`ItemShop.py` lines 37-51) -/

/-- Lines 38-41: `stackRanks` lists from the raw section, the resolved base
and the resolved metadata, concatenated in that order (non-lists are
skipped by the `isinstance` check). -/
def baseLevelRanks (sec base meta : JSON) : Except PyErr (List JSON) := do
  let s1 ← pyGet sec "stackRanks"
  let s2 ← pyGet base "stackRanks"
  let s3 ← pyGet meta "stackRanks"
  return listElems s1 ++ listElems s2 ++ listElems s3

/-- Line 44 (and 82): `og_list = meta.get("offerGroups") or []`. -/
def getOgListVal (meta : JSON) : Except PyErr JSON := do
  let v ← pyGet meta "offerGroups"
  return if truthy v then v else .arr []

/-- Lines 45-51: one offer group's contribution - its own `stackRanks`, or
its metadata's `stackRanks` when the former is falsy; non-dict offer groups
contribute nothing here (guarded by `isinstance(og, dict)`). -/
def ogRanks (og : JSON) : Except PyErr (List JSON) :=
  match og with
  | .obj _ => do
    let r ← pyGet og "stackRanks"
    let ranks ←
      if truthy r then pure r
      else do
        let m ← pyGet og "metadata"
        pyGet (if truthy m then m else .obj []) "stackRanks"
    return listElems ranks
  | _ => pure []

/-- The `for og in og_list` loop over offer groups (lines 45-51). -/
def ogListRanks : List JSON → Except PyErr (List JSON)
  | [] => pure []
  | og :: rest => do
    let r ← ogRanks og
    let rs ← ogListRanks rest
    return r ++ rs

/-- Lines 37-51: the flat ordered sequence of raw window candidates. -/
def collectStackRanks (sec base meta : JSON) : Except PyErr (List JSON) := do
  let first ← baseLevelRanks sec base meta
  let ogv ← getOgListVal meta
  let ogs ← pyIter ogv
  let extra ← ogListRanks ogs
  return first ++ extra

/-! ## 4.3 Validity Window Aggregator: grouping
(`ItemShop.py` lines 56-62) -/

/-- The sentinel placeholder start date excluded from all groups. -/
def SENTINEL : String := "2023-01-01T00:00:00.000Z"

/-- A grouping key: the `(context, productTag)` pair. -/
abbrev GroupKey := JSON × JSON

/-- Is the value usable as (a component of) a Python dict key?  Lists and
dicts are unhashable and raise `TypeError`. -/
def hashable : JSON → Bool
  | .arr _ => false
  | .obj _ => false
  | _ => true

/-- Python `==` on hashable key components (`None`, bools, ints, strings;
`True == 1` and `False == 0` hold in Python). -/
def pyKeyEq (a b : JSON) : Bool :=
  match intOf a, intOf b with
  | some x, some y => x == y
  | _, _ =>
    match a, b with
    | .null, .null => true
    | .str x, .str y => x == y
    | _, _ => false

/-- Python `==` on `(context, productTag)` tuples. -/
def keyEq (k1 k2 : GroupKey) : Bool :=
  pyKeyEq k1.1 k2.1 && pyKeyEq k1.2 k2.2

/-- `groups.setdefault(key, []).append(s)`: append to the entry of an
equal key, or create a new entry at the end (dict insertion order). -/
def addToGroups : List (GroupKey × List JSON) → GroupKey → JSON →
    List (GroupKey × List JSON)
  | [], k, s => [(k, [s])]
  | (k', items) :: rest, k, s =>
    if keyEq k' k then (k', items ++ [s]) :: rest
    else (k', items) :: addToGroups rest k s

/-- Lines 56-62: drop candidates with a falsy or sentinel `startDate` and
partition the rest by `(context, productTag)`; an unhashable key raises
`TypeError` at `setdefault`. -/
def buildGroups : List JSON → List (GroupKey × List JSON) →
    Except PyErr (List (GroupKey × List JSON))
  | [], gs => pure gs
  | s :: rest, gs => do
    let sd ← pyGet s "startDate"
    if !truthy sd || isStrEq sd SENTINEL then
      buildGroups rest gs
    else do
      let cx ← pyGet s "context"
      let pt ← pyGet s "productTag"
      if hashable cx && hashable pt then
        buildGroups rest (addToGroups gs (cx, pt) s)
      else
        .error .typeError

/-! ## 4.3 Validity Window Aggregator: per-group sort and window derivation
(`ItemShop.py` lines 64-74) -/

/-- Insert one element into an already sorted run, comparing the
`startDate` keys; an element moves left only past strictly greater keys, so
the overall sort is stable, like Python's `list.sort`. -/
def insertRankM (x : JSON) : List JSON → Except PyErr (List JSON)
  | [] => pure [x]
  | y :: ys => do
    let kx ← pyGet x "startDate"
    let ky ← pyGet y "startDate"
    let lt ← pyLt kx ky
    if lt then
      pure (x :: y :: ys)
    else do
      let rest ← insertRankM x ys
      pure (y :: rest)

/-- `items.sort(key=lambda x: x.get("startDate"))` as a stable insertion
sort (stability makes the result independent of the sorting algorithm). -/
def sortRanksM (l : List JSON) : Except PyErr (List JSON) :=
  l.foldlM (fun acc x => insertRankM x acc) []

/-- One derived validity window (an entry of `parsed_ranks`,
lines 70-74). -/
structure Window where
  startDate : JSON
  endDate : JSON
deriving Repr, DecidableEq

/-- Total `cur.get("startDate")` for the window-emission loop; the items of
every group are dicts by construction (they survived `s.get("startDate")`
in the grouping loop). -/
def sdOf (s : JSON) : JSON := jget s "startDate"

/-- Lines 68-74: each position of a sorted group yields a window whose
`endDate` is the successor's `startDate`, `None` for the last. -/
def chainWindows : List JSON → List Window
  | [] => []
  | [x] => [⟨sdOf x, .null⟩]
  | x :: y :: rest => ⟨sdOf x, sdOf y⟩ :: chainWindows (y :: rest)

/-- Lines 64-74: sort each group and emit its windows, flattened over the
groups in insertion order (`parsed_ranks`). -/
def deriveAllWindows : List (GroupKey × List JSON) → Except PyErr (List Window)
  | [] => pure []
  | (_, items) :: rest => do
    let sorted ← sortRanksM items
    let ws := chainWindows sorted
    let rest' ← deriveAllWindows rest
    return ws ++ rest'

/-- The aggregation pipeline from an already resolved base and metadata. -/
def windowsOf (sec base meta : JSON) : Except PyErr (List Window) := do
  let cands ← collectStackRanks sec base meta
  let gs ← buildGroups cands []
  deriveAllWindows gs

/-- 4.3 `aggregate`: the derived validity windows of one raw section. -/
def derivedWindows (sec : JSON) : Except PyErr (List Window) := do
  let base ← resolveBase sec
  let meta ← resolveMeta sec base
  windowsOf sec base meta

/-! ## 4.4 Offer Group Counter & Texture Collector
(`ItemShop.py` lines 78-96) -/

/-- Lines 90-93: the string `value` fields of the texture-metadata entries,
in order (`t.get("value")` raises on a non-dict entry). -/
def collectVals : List JSON → Except PyErr (List String)
  | [] => pure []
  | t :: rest => do
    let v ← pyGet t "value"
    let rs ← collectVals rest
    return (match v with | .str s => [s] | _ => []) ++ rs

/-- Lines 88-93, one offer group: `md = (og.get("metadata") or {})` —
note there is no `isinstance(og, dict)` guard here, so a non-dict offer
group raises `AttributeError`. -/
def textureFromOg (og : JSON) : Except PyErr (List String) := do
  let md0 ← pyGet og "metadata"
  let tm0 ← pyGet (if truthy md0 then md0 else .obj []) "textureMetadata"
  let tms ← pyIter (if truthy tm0 then tm0 else .arr [])
  collectVals tms

/-- The texture-URL collection loop over all offer groups (lines 87-93). -/
def texturesAll : List JSON → Except PyErr (List String)
  | [] => pure []
  | og :: rest => do
    let ts ← textureFromOg og
    let rs ← texturesAll rest
    return ts ++ rs

/-- Line 96, `list(dict.fromkeys(texture_urls))`: deduplicate keeping the
first occurrence of each URL. -/
def dedupFirst (l : List String) : List String :=
  (l.foldl (fun acc x => if acc.contains x then acc else acc ++ [x]) [])

/-! ## `stackRankStart` (`ItemShop.py` lines 98-104) -/

/-- Lines 98-104: `None` when there are no windows, else the Python `min`
of the truthy `startDate`s (the dead `except ValueError` arm is kept:
an empty generator would also yield `None`). -/
def stackRankStartOf (ws : List Window) : Except PyErr JSON :=
  if ws.isEmpty then pure .null
  else
    match pyMin ((ws.filter fun w => truthy w.startDate).map (·.startDate)) with
    | .ok v => .ok v
    | .error .valueError => .ok .null
    | .error e => .error e

/-! ## 4.5 Section Normalizer (`normalize_section`, lines 30-114) -/

/-- The canonical record produced for one raw section. -/
structure CanonicalSection where
  sectionId : JSON
  displayName : JSON
  customTexture : JSON
  offerGroupsCount : Int
  hasTextureMetadata : Bool
  textureUrls : List String
  stackRankStart : JSON
deriving Repr, DecidableEq

/-- `normalize_section` (`ItemShop.py` lines 30-114), with every Python
step that can raise made explicit in `Except PyErr`. -/
def normalize_section (sec : JSON) : Except PyErr CanonicalSection := do
  let base ← resolveBase sec
  let meta ← resolveMeta sec base
  let ws ← windowsOf sec base meta
  let bg0 ← pyGet meta "background"
  let customTex ← pyGet (if truthy bg0 then bg0 else .obj []) "customTexture"
  let ogv ← getOgListVal meta
  let cnt ← pyLen ogv
  let ogs ← pyIter ogv
  let urls ← texturesAll ogs
  let start ← stackRankStartOf ws
  return { sectionId := resolveField base ["sectionId", "sectionID", "id", "section_id", "name"],
           displayName := resolveField base ["displayName", "title", "sectionDisplayName"],
           customTexture := customTex,
           offerGroupsCount := cnt,
           hasTextureMetadata := !urls.isEmpty,
           textureUrls := dedupFirst urls,
           stackRankStart := start }

/-! ## Pure total models of the pipeline stages

Each monadic stage is related to a total function by an equation that
holds under explicit well-formedness hypotheses on the input. -/

theorem exc_bind_ok {α β : Type} (a : α) (f : α → Except PyErr β) :
    (Except.ok a >>= f) = f a := rfl

theorem exc_bind_err {α β : Type} (e : PyErr) (f : α → Except PyErr β) :
    ((Except.error e : Except PyErr α) >>= f) = .error e := rfl

theorem exc_pure {α : Type} (a : α) : (pure a : Except PyErr α) = .ok a := rfl

theorem pyGet_eq {j : JSON} (h : isObj j = true) (k : String) :
    pyGet j k = .ok (jget j k) := by
  cases j <;> simp_all [isObj, pyGet, jget]

/-- `v or []` is a list or the empty list under `okOrArrB`. -/
def okOrArrB (v : JSON) : Bool := !truthy v || isArrVal v

/-- `v or` a dict fallback stays a dict under `okOrObjB`. -/
def okOrObjB (v : JSON) : Bool := !truthy v || isObj v

theorem pyIter_okOrArr {v : JSON} (h : okOrArrB v = true) :
    pyIter (if truthy v then v else .arr []) = .ok (listElems v) := by
  cases hv : truthy v
  · rw [if_neg (by simp [hv])]
    cases v <;> simp_all [truthy, pyIter, listElems, List.isEmpty_iff]
  · rw [if_pos (by simp [hv])]
    have harr : isArrVal v = true := by simp_all [okOrArrB]
    cases v <;> simp_all [isArrVal, pyIter, listElems]

theorem pyLen_okOrArr {v : JSON} (h : okOrArrB v = true) :
    pyLen (if truthy v then v else .arr []) = .ok (listElems v).length := by
  cases hv : truthy v
  · rw [if_neg (by simp [hv])]
    cases v <;> simp_all [truthy, pyLen, listElems, List.isEmpty_iff]
  · rw [if_pos (by simp [hv])]
    have harr : isArrVal v = true := by simp_all [okOrArrB]
    cases v <;> simp_all [isArrVal, pyLen, listElems]

/-- Total model of the base resolution: first truthy of the `section` and
`content` values, else the section itself. -/
def baseOf (sec : JSON) : JSON :=
  if truthy (jget sec "section") then jget sec "section"
  else if truthy (jget sec "content") then jget sec "content"
  else sec

/-- Total model of the metadata resolution: first truthy of the base's and
the wrapper's `metadata`, else the empty dict. -/
def metaOf (sec base : JSON) : JSON :=
  if truthy (jget base "metadata") then jget base "metadata"
  else if truthy (jget sec "metadata") then jget sec "metadata"
  else .obj []

/-- The resolved metadata of a section (base resolved first). -/
def metaOfS (sec : JSON) : JSON := metaOf sec (baseOf sec)

theorem resolveBase_eq {sec : JSON} (h : isObj sec = true) :
    resolveBase sec = .ok (baseOf sec) := by
  rw [resolveBase, pyGet_eq h, baseOf, exc_bind_ok]
  split
  · rfl
  · rw [pyGet_eq h, exc_bind_ok]
    split <;> rfl

theorem resolveMeta_eq {sec base : JSON} (hs : isObj sec = true)
    (hb : isObj base = true) :
    resolveMeta sec base = .ok (metaOf sec base) := by
  rw [resolveMeta, pyGet_eq hb, metaOf, exc_bind_ok]
  split
  · rfl
  · rw [pyGet_eq hs, exc_bind_ok]
    split <;> rfl

theorem isObj_baseOf {sec : JSON} (hs : isObj sec = true)
    (h1 : okOrObjB (jget sec "section") = true)
    (h2 : okOrObjB (jget sec "content") = true) :
    isObj (baseOf sec) = true := by
  rw [baseOf]
  split
  · simp_all [okOrObjB]
  · split
    · simp_all [okOrObjB]
    · exact hs

theorem isObj_metaOf {sec base : JSON} (_hs : isObj sec = true)
    (h1 : okOrObjB (jget base "metadata") = true)
    (h2 : okOrObjB (jget sec "metadata") = true) :
    isObj (metaOf sec base) = true := by
  rw [metaOf]
  split
  · simp_all [okOrObjB]
  · split
    · simp_all [okOrObjB]
    · rfl

/-- Total model of one offer group's `stackRanks` contribution. -/
def mdOfOg (og : JSON) : JSON :=
  if truthy (jget og "metadata") then jget og "metadata" else .obj []

/-- Total model of `ogRanks`: the offer group's own truthy `stackRanks`,
else its metadata's; only list values contribute elements. -/
def ogRanksT (og : JSON) : List JSON :=
  if isObj og then
    if truthy (jget og "stackRanks") then listElems (jget og "stackRanks")
    else listElems (jget (mdOfOg og) "stackRanks")
  else []

theorem ogRanks_eq {og : JSON}
    (h : isObj og = true → okOrObjB (jget og "metadata") = true) :
    ogRanks og = .ok (ogRanksT og) := by
  cases hog : isObj og
  · cases og <;> simp_all [isObj, ogRanks, ogRanksT, exc_pure]
  · have hmd := h hog
    cases og with
    | obj kvs =>
      rw [ogRanks, ogRanksT, pyGet_eq hog, exc_bind_ok]
      simp only [hog, if_true]
      split
      · rfl
      · rw [pyGet_eq hog, exc_bind_ok, mdOfOg]
        split
        · rw [pyGet_eq (by simp_all [okOrObjB]), exc_bind_ok]
          rfl
        · rw [pyGet_eq (by rfl), exc_bind_ok]
          rfl
    | null => simp_all [isObj]
    | bool b => simp_all [isObj]
    | num n => simp_all [isObj]
    | str s => simp_all [isObj]
    | arr l => simp_all [isObj]

theorem ogListRanks_eq : ∀ {ogs : List JSON},
    (∀ og ∈ ogs, isObj og = true → okOrObjB (jget og "metadata") = true) →
    ogListRanks ogs = .ok (ogs.map ogRanksT).flatten
  | [], _ => rfl
  | og :: rest, h => by
    rw [ogListRanks, ogRanks_eq (h og (by simp)), exc_bind_ok,
      ogListRanks_eq fun og' hmem => h og' (List.mem_cons_of_mem _ hmem), exc_bind_ok]
    simp [exc_pure]

/-- The offer-group entries of the resolved metadata (`og_list`). -/
def ogElemsT (meta : JSON) : List JSON := listElems (jget meta "offerGroups")

/-- Total model of the flat candidate sequence of `ItemShop.py` lines
37-51: the three fixed `stackRanks` locations concatenated in order,
followed by each offer group's contribution in offer-group order. -/
def candListT (sec base meta : JSON) : List JSON :=
  listElems (jget sec "stackRanks") ++ listElems (jget base "stackRanks") ++
    listElems (jget meta "stackRanks") ++ ((ogElemsT meta).map ogRanksT).flatten

theorem getOgListVal_eq {meta : JSON} (hm : isObj meta = true) :
    getOgListVal meta =
      .ok (if truthy (jget meta "offerGroups") then jget meta "offerGroups" else .arr []) := by
  rw [getOgListVal, pyGet_eq hm, exc_bind_ok]
  rfl

theorem collectStackRanks_eq {sec base meta : JSON} (hs : isObj sec = true)
    (hb : isObj base = true) (hm : isObj meta = true)
    (hogv : okOrArrB (jget meta "offerGroups") = true)
    (hogs : ∀ og ∈ ogElemsT meta, isObj og = true → okOrObjB (jget og "metadata") = true) :
    collectStackRanks sec base meta = .ok (candListT sec base meta) := by
  rw [collectStackRanks, baseLevelRanks, pyGet_eq hs, exc_bind_ok, pyGet_eq hb,
    exc_bind_ok, pyGet_eq hm, exc_bind_ok, exc_pure, exc_bind_ok,
    getOgListVal_eq hm, exc_bind_ok, pyIter_okOrArr hogv, exc_bind_ok]
  have hj := @ogListRanks_eq (listElems (jget meta "offerGroups")) hogs
  rw [hj, exc_bind_ok]
  simp [exc_pure, candListT, ogElemsT]

/-! ## Grouping: total model and invariants -/

/-- A candidate survives the filter of line 59 iff its `startDate` is
truthy and not the sentinel. -/
def admitted (s : JSON) : Bool :=
  truthy (jget s "startDate") && !isStrEq (jget s "startDate") SENTINEL

/-- The `(context, productTag)` key of a candidate. -/
def keyOf (s : JSON) : GroupKey := (jget s "context", jget s "productTag")

/-- Total model of the grouping loop. -/
def groupsT : List JSON → List (GroupKey × List JSON) → List (GroupKey × List JSON)
  | [], gs => gs
  | s :: rest, gs =>
    groupsT rest (if admitted s then addToGroups gs (keyOf s) s else gs)

theorem buildGroups_eq : ∀ {cands : List JSON} {gs : List (GroupKey × List JSON)},
    (∀ s ∈ cands, isObj s = true ∧
      (admitted s = true → (hashable (jget s "context") && hashable (jget s "productTag")) = true)) →
    buildGroups cands gs = .ok (groupsT cands gs)
  | [], gs, _ => rfl
  | s :: rest, gs, h => by
    obtain ⟨hobj, hhash⟩ := h s (by simp)
    have hrest := fun s' hmem => h s' (List.mem_cons_of_mem _ hmem)
    rw [buildGroups, groupsT, pyGet_eq hobj, exc_bind_ok]
    by_cases hadm : admitted s = true
    · have h1 : (!truthy (jget s "startDate") || isStrEq (jget s "startDate") SENTINEL) = false := by
        simp only [admitted, Bool.and_eq_true, Bool.not_eq_true'] at hadm
        simp [hadm.1, hadm.2]
      rw [if_neg (by simp [h1]), pyGet_eq hobj, exc_bind_ok, pyGet_eq hobj, exc_bind_ok,
        if_pos (hhash hadm), if_pos hadm]
      exact buildGroups_eq hrest
    · have h1 : (!truthy (jget s "startDate") || isStrEq (jget s "startDate") SENTINEL) = true := by
        simp only [admitted, Bool.and_eq_true, Bool.not_eq_true'] at hadm
        cases ht : truthy (jget s "startDate")
        · simp
        · simp only [ht, Bool.not_true, Bool.false_or]
          cases hs2 : isStrEq (jget s "startDate") SENTINEL
          · exact absurd ⟨ht, hs2⟩ hadm
          · rfl
      rw [if_pos (by simp [h1]), if_neg hadm]
      exact buildGroups_eq hrest

theorem addToGroups_item_cases : ∀ {gs : List (GroupKey × List JSON)} {k : GroupKey} {x : JSON},
    ∀ g ∈ addToGroups gs k x, ∀ s ∈ g.2, (∃ g0 ∈ gs, s ∈ g0.2) ∨ s = x
  | [], k, x => by
    intro g hg s hs
    simp only [addToGroups, List.mem_singleton] at hg
    subst hg
    simp only [List.mem_singleton] at hs
    exact Or.inr hs
  | (p1, p2) :: rest, k, x => by
    intro g hg s hs
    rw [addToGroups] at hg
    by_cases hk : keyEq p1 k = true
    · rw [if_pos hk] at hg
      rcases List.mem_cons.mp hg with hg | hg
      · subst hg
        rcases List.mem_append.mp hs with hs2 | hs2
        · exact Or.inl ⟨(p1, p2), by simp, hs2⟩
        · simp only [List.mem_singleton] at hs2
          exact Or.inr hs2
      · exact Or.inl ⟨g, by simp [hg], hs⟩
    · rw [if_neg hk] at hg
      rcases List.mem_cons.mp hg with hg | hg
      · subst hg
        exact Or.inl ⟨(p1, p2), by simp, hs⟩
      · rcases addToGroups_item_cases g hg s hs with ⟨g0, hg0, hs0⟩ | hx
        · exact Or.inl ⟨g0, by simp [hg0], hs0⟩
        · exact Or.inr hx

/-- Every item in the groups built from `cands` either was already in the
accumulator or is an admitted candidate. -/
theorem groupsT_item_cases : ∀ {cands : List JSON} {gs0 : List (GroupKey × List JSON)},
    ∀ g ∈ groupsT cands gs0, ∀ s ∈ g.2,
      (∃ g0 ∈ gs0, s ∈ g0.2) ∨ (s ∈ cands ∧ admitted s = true)
  | [], gs0 => by
    intro g hg s hs
    exact Or.inl ⟨g, hg, hs⟩
  | c :: rest, gs0 => by
    intro g hg s hs
    rw [groupsT] at hg
    by_cases hadm : admitted c = true
    · rw [if_pos hadm] at hg
      rcases groupsT_item_cases g hg s hs with hacc | ⟨hmem, hadm'⟩
      · obtain ⟨g0, hg0, hs0⟩ := hacc
        rcases addToGroups_item_cases g0 hg0 s hs0 with ⟨g1, hg1, hs1⟩ | hx
        · exact Or.inl ⟨g1, hg1, hs1⟩
        · subst hx
          exact Or.inr ⟨by simp, hadm⟩
      · exact Or.inr ⟨List.mem_cons_of_mem _ hmem, hadm'⟩
    · rw [if_neg hadm] at hg
      rcases groupsT_item_cases g hg s hs with hacc | ⟨hmem, hadm'⟩
      · exact Or.inl hacc
      · exact Or.inr ⟨List.mem_cons_of_mem _ hmem, hadm'⟩

theorem pyGet_ok_inv {j : JSON} {k : String} {v : JSON} (h : pyGet j k = .ok v) :
    isObj j = true ∧ v = jget j k := by
  cases j <;> simp_all [pyGet, isObj, jget]

/-- Items of the groups produced by the (monadic) grouping loop: each one
either was in the accumulator already, or is a candidate whose `startDate`
is truthy and not the sentinel. -/
theorem buildGroups_item_inv : ∀ {cands : List JSON} {gs0 gs : List (GroupKey × List JSON)},
    buildGroups cands gs0 = .ok gs →
    ∀ g ∈ gs, ∀ s ∈ g.2, (∃ g0 ∈ gs0, s ∈ g0.2) ∨
      (s ∈ cands ∧ truthy (jget s "startDate") = true ∧
        isStrEq (jget s "startDate") SENTINEL = false)
  | [], gs0, gs, h => by
    intro g hg s hs
    rw [buildGroups, exc_pure] at h
    injection h with h
    subst h
    exact Or.inl ⟨g, hg, hs⟩
  | c :: rest, gs0, gs, h => by
    intro g hg s hs
    rw [buildGroups] at h
    cases hsd : pyGet c "startDate" with
    | error e =>
      rw [hsd, exc_bind_err] at h
      exact absurd h (by simp)
    | ok sd =>
      obtain ⟨hobj, hval⟩ := pyGet_ok_inv hsd
      rw [hsd, exc_bind_ok] at h
      by_cases hcond : (!truthy sd || isStrEq sd SENTINEL) = true
      · rw [if_pos hcond] at h
        rcases buildGroups_item_inv h g hg s hs with hacc | ⟨hmem, hadm⟩
        · exact Or.inl hacc
        · exact Or.inr ⟨List.mem_cons_of_mem _ hmem, hadm⟩
      · rw [if_neg hcond, pyGet_eq hobj, exc_bind_ok, pyGet_eq hobj, exc_bind_ok] at h
        by_cases hhash : (hashable (jget c "context") && hashable (jget c "productTag")) = true
        · rw [if_pos hhash] at h
          rcases buildGroups_item_inv h g hg s hs with ⟨g0, hg0, hs0⟩ | ⟨hmem, hadm⟩
          · rcases addToGroups_item_cases g0 hg0 s hs0 with hold | hnew
            · exact Or.inl hold
            · subst hnew
              refine Or.inr ⟨by simp, ?_, ?_⟩
              · cases ht : truthy (jget s "startDate")
                · rw [hval, ht] at hcond
                  simp at hcond
                · rfl
              · cases hse : isStrEq (jget s "startDate") SENTINEL
                · rfl
                · rw [hval, hse] at hcond
                  simp at hcond
          · exact Or.inr ⟨List.mem_cons_of_mem _ hmem, hadm⟩
        · rw [if_neg hhash] at h
          exact absurd h (by simp)

/-! ## Per-group sort: pure model, permutation and sortedness -/

/-- The string sort key of a group item (every group item is a dict whose
`startDate` is a truthy string under well-formedness). -/
def sdKey (s : JSON) : String :=
  match jget s "startDate" with
  | .str d => d
  | _ => ""

/-- Pure stable insertion into a sorted run: move left past strictly
greater keys only. -/
def insertRankP (x : JSON) : List JSON → List JSON
  | [] => [x]
  | y :: ys => if strLt (sdKey x) (sdKey y) then x :: y :: ys else y :: insertRankP x ys

/-- Pure stable insertion sort, the total model of `sortRanksM`. -/
def sortRanksP (l : List JSON) : List JSON :=
  l.foldl (fun acc x => insertRankP x acc) []

/-- A group item is sortable when it is a dict with a string `startDate`. -/
def sortable (s : JSON) : Bool := isObj s && isStrVal (jget s "startDate")

theorem sdKey_of_sortable {s : JSON} (h : sortable s = true) :
    jget s "startDate" = .str (sdKey s) := by
  rw [sortable, Bool.and_eq_true] at h
  rw [sdKey]
  cases hv : jget s "startDate" <;> simp_all [isStrVal]

theorem mem_insertRankP {x z : JSON} : ∀ {l : List JSON},
    z ∈ insertRankP x l ↔ z = x ∨ z ∈ l
  | [] => by simp [insertRankP]
  | y :: ys => by
    rw [insertRankP]
    split
    · simp [List.mem_cons]
    · simp only [List.mem_cons, mem_insertRankP (l := ys)]
      tauto

theorem insertRankP_perm (x : JSON) : ∀ (l : List JSON),
    (insertRankP x l).Perm (x :: l)
  | [] => List.Perm.refl _
  | y :: ys => by
    rw [insertRankP]
    split
    · exact List.Perm.refl _
    · exact ((insertRankP_perm x ys).cons y).trans (List.Perm.swap x y ys)

theorem sortRanksP_perm (l : List JSON) : (sortRanksP l).Perm l := by
  suffices h : ∀ (l acc : List JSON), (l.foldl (fun acc x => insertRankP x acc) acc).Perm (acc ++ l) by
    simpa using h l []
  intro l
  induction l with
  | nil => simp
  | cons x xs ih =>
    intro acc
    rw [List.foldl_cons]
    refine (ih (insertRankP x acc)).trans ?_
    refine (List.Perm.append_right xs (insertRankP_perm x acc)).trans ?_
    exact List.perm_middle.symm

/-- The sorted-run predicate: keys weakly increase along the list. -/
def SortedRanks (l : List JSON) : Prop :=
  l.Pairwise fun a b => strLe (sdKey a) (sdKey b) = true

theorem insertRankP_sorted {x : JSON} : ∀ {l : List JSON},
    SortedRanks l → SortedRanks (insertRankP x l)
  | [], _ => List.pairwise_singleton _ _
  | y :: ys, h => by
    rw [SortedRanks, List.pairwise_cons] at h
    obtain ⟨hy, hys⟩ := h
    rw [insertRankP]
    split
    · rename_i hlt
      rw [SortedRanks, List.pairwise_cons]
      constructor
      · intro z hz
        rcases List.mem_cons.mp hz with hz | hz
        · subst hz
          simp only [strLe, Bool.not_eq_true']
          cases hyx : strLt (sdKey z) (sdKey x)
          · rfl
          · have := strLt_trans hlt hyx
            rw [strLt_irrefl] at this
            exact absurd this (by simp)
        · have h1 : strLe (sdKey x) (sdKey y) = true := by
            simp only [strLe, Bool.not_eq_true']
            cases hyx : strLt (sdKey y) (sdKey x)
            · rfl
            · have := strLt_trans hyx hlt
              rw [strLt_irrefl] at this
              exact absurd this (by simp)
          exact strLe_trans h1 (hy z hz)
      · exact List.Pairwise.cons hy hys
    · rename_i hnlt
      rw [SortedRanks, List.pairwise_cons]
      constructor
      · intro z hz
        rcases mem_insertRankP.mp hz with hz | hz
        · subst hz
          simpa [strLe] using hnlt
        · exact hy z hz
      · exact insertRankP_sorted hys

theorem sortRanksP_sorted (l : List JSON) : SortedRanks (sortRanksP l) := by
  suffices h : ∀ (l acc : List JSON), SortedRanks acc →
      SortedRanks (l.foldl (fun acc x => insertRankP x acc) acc) by
    exact h l [] List.Pairwise.nil
  intro l
  induction l with
  | nil => exact fun acc h => h
  | cons x xs ih =>
    intro acc hacc
    rw [List.foldl_cons]
    exact ih _ (insertRankP_sorted hacc)

theorem sortable_isObj {s : JSON} (h : sortable s = true) : isObj s = true := by
  rw [sortable, Bool.and_eq_true] at h
  exact h.1

theorem insertRankM_eq {x : JSON} : ∀ {l : List JSON}, sortable x = true →
    (∀ y ∈ l, sortable y = true) →
    insertRankM x l = .ok (insertRankP x l)
  | [], _, _ => rfl
  | y :: ys, hx, hl => by
    have hy := hl y (by simp)
    rw [insertRankM, pyGet_eq (sortable_isObj hx), exc_bind_ok,
      pyGet_eq (sortable_isObj hy), exc_bind_ok,
      sdKey_of_sortable hx, sdKey_of_sortable hy]
    rw [show pyLt (JSON.str (sdKey x)) (JSON.str (sdKey y)) = .ok (strLt (sdKey x) (sdKey y)) from rfl,
      exc_bind_ok]
    rw [insertRankP]
    split
    · rfl
    · rw [insertRankM_eq hx fun z hz => hl z (List.mem_cons_of_mem _ hz), exc_bind_ok]
      rfl

theorem sortRanksM_eq {l : List JSON} (h : ∀ s ∈ l, sortable s = true) :
    sortRanksM l = .ok (sortRanksP l) := by
  rw [sortRanksM, sortRanksP]
  suffices hgen : ∀ (l acc : List JSON), (∀ s ∈ l, sortable s = true) →
      (∀ s ∈ acc, sortable s = true) →
      l.foldlM (fun acc x => insertRankM x acc) acc =
        .ok (l.foldl (fun acc x => insertRankP x acc) acc) by
    exact hgen l [] h (by simp)
  intro l
  induction l with
  | nil => intro acc _ _; rfl
  | cons x xs ih =>
    intro acc hl hacc
    rw [List.foldlM_cons, List.foldl_cons,
      insertRankM_eq (hl x (by simp)) hacc, exc_bind_ok]
    exact ih _ (fun s hs => hl s (List.mem_cons_of_mem _ hs))
      (fun s hs => (mem_insertRankP.mp hs).elim (fun he => he ▸ hl x (by simp)) (hacc s))

/-- Membership in a successful monadic sort result comes from the input
(no assumptions on the items). -/
theorem insertRankM_mem : ∀ {x : JSON} {l r : List JSON},
    insertRankM x l = .ok r → ∀ z ∈ r, z = x ∨ z ∈ l := by
  intro x l
  induction l with
  | nil =>
    intro r h z hz
    rw [insertRankM, exc_pure] at h
    injection h with h
    subst h
    simp only [List.mem_singleton] at hz
    exact Or.inl hz
  | cons y ys ih =>
    intro r h z hz
    rw [insertRankM] at h
    cases h1 : pyGet x "startDate" with
    | error e => rw [h1, exc_bind_err] at h; exact absurd h (by simp)
    | ok kx =>
      rw [h1, exc_bind_ok] at h
      cases h2 : pyGet y "startDate" with
      | error e => rw [h2, exc_bind_err] at h; exact absurd h (by simp)
      | ok ky =>
        rw [h2, exc_bind_ok] at h
        cases h3 : pyLt kx ky with
        | error e => rw [h3, exc_bind_err] at h; exact absurd h (by simp)
        | ok lt =>
          rw [h3, exc_bind_ok] at h
          cases lt with
          | true =>
            rw [if_pos rfl, exc_pure] at h
            injection h with h
            subst h
            simpa [List.mem_cons] using hz
          | false =>
            rw [if_neg (by simp)] at h
            cases h4 : insertRankM x ys with
            | error e => rw [h4, exc_bind_err] at h; exact absurd h (by simp)
            | ok rest =>
              rw [h4, exc_bind_ok, exc_pure] at h
              injection h with h
              subst h
              rcases List.mem_cons.mp hz with hz | hz
              · exact Or.inr (by simp [hz])
              · rcases ih h4 z hz with hzx | hzy
                · exact Or.inl hzx
                · exact Or.inr (List.mem_cons_of_mem _ hzy)

theorem sortRanksM_mem {l r : List JSON} (h : sortRanksM l = .ok r) :
    ∀ z ∈ r, z ∈ l := by
  rw [sortRanksM] at h
  suffices hgen : ∀ (l : List JSON) (acc r : List JSON),
      l.foldlM (fun acc x => insertRankM x acc) acc = .ok r →
      ∀ z ∈ r, z ∈ acc ∨ z ∈ l by
    intro z hz
    rcases hgen l [] r h z hz with hacc | hl
    · simp at hacc
    · exact hl
  intro l
  induction l with
  | nil =>
    intro acc r h z hz
    rw [List.foldlM_nil, exc_pure] at h
    injection h with h
    subst h
    exact Or.inl hz
  | cons x xs ih =>
    intro acc r h z hz
    rw [List.foldlM_cons] at h
    cases h1 : insertRankM x acc with
    | error e => rw [h1, exc_bind_err] at h; exact absurd h (by simp)
    | ok acc' =>
      rw [h1, exc_bind_ok] at h
      rcases ih acc' r h z hz with hacc | hxs
      · rcases insertRankM_mem h1 z hacc with hzx | hza
        · exact Or.inr (by simp [hzx])
        · exact Or.inl hza
      · exact Or.inr (List.mem_cons_of_mem _ hxs)

/-! ## Window derivation: total model and structure lemmas -/

/-- Total model of `deriveAllWindows`: sort each group, chain it, flatten
over groups in insertion order. -/
def windowsTG (gs : List (GroupKey × List JSON)) : List Window :=
  (gs.map fun g => chainWindows (sortRanksP g.2)).flatten

theorem deriveAllWindows_eq : ∀ {gs : List (GroupKey × List JSON)},
    (∀ g ∈ gs, ∀ s ∈ g.2, sortable s = true) →
    deriveAllWindows gs = .ok (windowsTG gs)
  | [], _ => rfl
  | (k, items) :: rest, h => by
    rw [deriveAllWindows, sortRanksM_eq (h (k, items) (by simp)), exc_bind_ok,
      deriveAllWindows_eq fun g hg s hs => h g (List.mem_cons_of_mem _ hg) s hs, exc_bind_ok]
    simp [exc_pure, windowsTG]

/-- The startDates of the chained windows are exactly the (total)
`startDate` fields of the underlying items, in order. -/
theorem chainWindows_map_start : ∀ l : List JSON,
    (chainWindows l).map Window.startDate = l.map sdOf
  | [] => rfl
  | [x] => rfl
  | x :: y :: rest => by
    rw [chainWindows]
    simp only [List.map_cons]
    rw [chainWindows_map_start (y :: rest)]
    simp

/-- Each non-final window's `endDate` is the next window's `startDate`. -/
theorem chainWindows_chained : ∀ (l : List JSON) (i : Nat) (w w' : Window),
    (chainWindows l)[i]? = some w → (chainWindows l)[i + 1]? = some w' →
    w.endDate = w'.startDate
  | [], i, w, w', h, h' => by simp [chainWindows] at h
  | [x], i, w, w', h, h' => by
    rw [chainWindows] at h'
    rcases i with _ | i <;> simp at h'
  | x :: y :: rest, 0, w, w', h, h' => by
    rw [chainWindows] at h h'
    simp only [List.getElem?_cons_zero, Option.some_inj] at h
    subst h
    have h2 : (chainWindows (y :: rest))[0]? = some w' := by
      simpa using h'
    have hstart := chainWindows_map_start (y :: rest)
    have : ((chainWindows (y :: rest)).map Window.startDate)[0]? = some w'.startDate := by
      rw [List.getElem?_map, h2]
      rfl
    rw [hstart] at this
    simp only [List.map_cons, List.getElem?_cons_zero, Option.some_inj] at this
    simpa using this
  | x :: y :: rest, i + 1, w, w', h, h' => by
    rw [chainWindows] at h h'
    simp only [List.getElem?_cons_succ] at h h'
    exact chainWindows_chained (y :: rest) i w w' h h'

/-- The final chained window has a `None` end date. -/
theorem chainWindows_last : ∀ (l : List JSON) (w : Window),
    (chainWindows l).getLast? = some w → w.endDate = .null
  | [], w, h => by simp [chainWindows] at h
  | [x], w, h => by
    rw [chainWindows] at h
    simp only [List.getLast?_singleton, Option.some_inj] at h
    subst h
    rfl
  | x :: y :: rest, w, h => by
    rw [chainWindows] at h
    have hcw : ∃ a l, chainWindows (y :: rest) = a :: l := by
      cases rest with
      | nil => exact ⟨_, _, rfl⟩
      | cons z r => rw [chainWindows]; exact ⟨_, _, rfl⟩
    obtain ⟨a, l, hal⟩ := hcw
    rw [hal, List.getLast?_cons_cons, ← hal] at h
    exact chainWindows_last (y :: rest) w h

/-- Every window start in a chained group is the `startDate` of one of the
group's items. -/
theorem chainWindows_start_mem {l : List JSON} {w : Window} (h : w ∈ chainWindows l) :
    ∃ s ∈ l, w.startDate = sdOf s := by
  have : w.startDate ∈ (chainWindows l).map Window.startDate := List.mem_map_of_mem _ h
  rw [chainWindows_map_start] at this
  obtain ⟨s, hs, hval⟩ := List.mem_map.mp this
  exact ⟨s, hs, hval.symm⟩

/-- Every window end in a chained group is `None` or the `startDate` of one
of the group's items. -/
theorem chainWindows_end_mem : ∀ {l : List JSON} {w : Window}, w ∈ chainWindows l →
    w.endDate = .null ∨ ∃ s ∈ l, w.endDate = sdOf s
  | [], w, h => by simp [chainWindows] at h
  | [x], w, h => by
    rw [chainWindows] at h
    simp only [List.mem_singleton] at h
    subst h
    exact Or.inl rfl
  | x :: y :: rest, w, h => by
    rw [chainWindows] at h
    rcases List.mem_cons.mp h with h | h
    · subst h
      exact Or.inr ⟨y, by simp, rfl⟩
    · rcases chainWindows_end_mem h with h0 | ⟨s, hs, hval⟩
      · exact Or.inl h0
      · exact Or.inr ⟨s, List.mem_cons_of_mem _ hs, hval⟩

/-! ## Texture collection: total model -/

/-- Total model of `collectVals`. -/
def collectValsT (tms : List JSON) : List String :=
  tms.filterMap fun t =>
    match jget t "value" with
    | .str s => some s
    | _ => none

theorem collectVals_eq : ∀ {tms : List JSON}, (∀ t ∈ tms, isObj t = true) →
    collectVals tms = .ok (collectValsT tms)
  | [], _ => rfl
  | t :: rest, h => by
    rw [collectVals, pyGet_eq (h t (by simp)), exc_bind_ok,
      collectVals_eq fun t' ht' => h t' (List.mem_cons_of_mem _ ht'), exc_bind_ok]
    simp only [collectValsT, List.filterMap_cons]
    cases hv : jget t "value" <;> simp [exc_pure, hv]

/-- Total model of one offer group's texture-URL contribution. -/
def textureFromOgT (og : JSON) : List String :=
  collectValsT (listElems (jget (mdOfOg og) "textureMetadata"))

theorem textureFromOg_eq {og : JSON} (hobj : isObj og = true)
    (hmd : okOrObjB (jget og "metadata") = true)
    (htm : okOrArrB (jget (mdOfOg og) "textureMetadata") = true)
    (hts : ∀ t ∈ listElems (jget (mdOfOg og) "textureMetadata"), isObj t = true) :
    textureFromOg og = .ok (textureFromOgT og) := by
  have hmdobj : isObj (mdOfOg og) = true := by
    rw [mdOfOg]
    split
    · simp_all [okOrObjB]
    · rfl
  rw [textureFromOg, pyGet_eq hobj, exc_bind_ok]
  rw [show (if truthy (jget og "metadata") then jget og "metadata" else JSON.obj []) = mdOfOg og
    from rfl]
  rw [pyGet_eq hmdobj, exc_bind_ok, pyIter_okOrArr htm, exc_bind_ok, collectVals_eq hts]
  rfl

/-- Total model of the texture-URL collection across offer groups. -/
def texturesT (ogs : List JSON) : List String :=
  (ogs.map textureFromOgT).flatten

theorem texturesAll_eq : ∀ {ogs : List JSON},
    (∀ og ∈ ogs, isObj og = true ∧ okOrObjB (jget og "metadata") = true ∧
      okOrArrB (jget (mdOfOg og) "textureMetadata") = true ∧
      ∀ t ∈ listElems (jget (mdOfOg og) "textureMetadata"), isObj t = true) →
    texturesAll ogs = .ok (texturesT ogs)
  | [], _ => rfl
  | og :: rest, h => by
    obtain ⟨h1, h2, h3, h4⟩ := h og (by simp)
    rw [texturesAll, textureFromOg_eq h1 h2 h3 h4, exc_bind_ok,
      texturesAll_eq fun og' hmem => h og' (List.mem_cons_of_mem _ hmem), exc_bind_ok]
    simp [exc_pure, texturesT]

/-! ## Python `min` over strings -/

/-- The running-minimum fold of Python's `min` on strings. -/
def strMinList : String → List String → String
  | cur, [] => cur
  | cur, y :: ys => strMinList (if strLt y cur then y else cur) ys

theorem pyMinAux_str : ∀ {ds : List String} {cur : String},
    pyMinAux (.str cur) (ds.map .str) = .ok (.str (strMinList cur ds))
  | [], cur => rfl
  | d :: ds, cur => by
    rw [List.map_cons, pyMinAux,
      show pyLt (JSON.str d) (JSON.str cur) = .ok (strLt d cur) from rfl, exc_bind_ok]
    cases h : strLt d cur <;>
      simp [h, strMinList, @pyMinAux_str ds]

theorem strMinList_mem : ∀ (ds : List String) (cur : String),
    strMinList cur ds = cur ∨ strMinList cur ds ∈ ds
  | [], cur => Or.inl rfl
  | d :: ds, cur => by
    rw [strMinList]
    split
    · rcases strMinList_mem ds d with h | h
      · exact Or.inr (by simp [h])
      · exact Or.inr (List.mem_cons_of_mem _ h)
    · rcases strMinList_mem ds cur with h | h
      · exact Or.inl h
      · exact Or.inr (List.mem_cons_of_mem _ h)

theorem strLe_refl (a : String) : strLe a a = true := by
  simp [strLe, strLt_irrefl]

theorem strLe_of_strLt {a b : String} (h : strLt a b = true) : strLe a b = true := by
  simp only [strLe, Bool.not_eq_true']
  cases hba : strLt b a
  · rfl
  · have := strLt_trans h hba
    rw [strLt_irrefl] at this
    exact absurd this (by simp)

theorem strLe_of_not_lt {a b : String} (h : strLt a b = false) : strLe b a = true := by
  simp [strLe, h]

theorem strMinList_le : ∀ (ds : List String) (cur : String),
    strLe (strMinList cur ds) cur = true ∧ ∀ x ∈ ds, strLe (strMinList cur ds) x = true
  | [], cur => ⟨strLe_refl cur, by simp⟩
  | d :: ds, cur => by
    rw [strMinList]
    split
    · rename_i hlt
      obtain ⟨h1, h2⟩ := strMinList_le ds d
      refine ⟨strLe_trans h1 (strLe_of_strLt hlt), ?_⟩
      intro x hx
      rcases List.mem_cons.mp hx with hx | hx
      · subst hx
        exact h1
      · exact h2 x hx
    · rename_i hlt
      obtain ⟨h1, h2⟩ := strMinList_le ds cur
      refine ⟨h1, ?_⟩
      intro x hx
      rcases List.mem_cons.mp hx with hx | hx
      · subst hx
        exact strLe_trans h1 (strLe_of_not_lt (by simpa using hlt))
      · exact h2 x hx

/-- The string keys of a window list (all windows have string startDates in
well-formed runs; the default is never used there). -/
def startKeys (ws : List Window) : List String :=
  ws.map fun w =>
    match w.startDate with
    | .str d => d
    | _ => ""

/-- Total model of `stackRankStartOf` on well-formed windows. -/
def startMinT (ws : List Window) : JSON :=
  match startKeys ws with
  | [] => .null
  | d :: ds => .str (strMinList d ds)

theorem stackRankStartOf_eq {ws : List Window}
    (h : ∀ w ∈ ws, truthy w.startDate = true ∧ isStrVal w.startDate = true) :
    stackRankStartOf ws = .ok (startMinT ws) := by
  cases ws with
  | nil => rfl
  | cons w rest =>
    rw [stackRankStartOf, if_neg (by simp)]
    have hfilter : (w :: rest).filter (fun w => truthy w.startDate) = w :: rest := by
      rw [List.filter_eq_self]
      intro a ha
      exact (h a ha).1
    rw [hfilter]
    have hmap : (w :: rest).map Window.startDate = (startKeys (w :: rest)).map .str := by
      rw [startKeys, List.map_map]
      apply List.map_congr_left
      intro a ha
      have := (h a ha).2
      cases hv : a.startDate <;> simp_all [isStrVal]
    rw [hmap]
    have hk : startKeys (w :: rest) =
        (match w.startDate with | .str d => d | _ => "") :: startKeys rest := rfl
    rw [hk, List.map_cons, pyMin, pyMinAux_str]
    rw [startMinT, hk]

/-! ## Well-formed sections and the total model of `normalize_section` -/

/-- A well-formed window candidate: a dict whose `startDate`, when truthy,
is a string, and whose `context`/`productTag` are hashable. -/
def wfRank (s : JSON) : Bool :=
  isObj s && (!truthy (jget s "startDate") || isStrVal (jget s "startDate")) &&
    hashable (jget s "context") && hashable (jget s "productTag")

/-- A well-formed offer group: a dict whose metadata, when truthy, is a
dict; whose (direct and metadata) `stackRanks` lists hold well-formed
candidates; and whose texture metadata, when truthy, is a list of dicts. -/
def wfOg (og : JSON) : Bool :=
  isObj og && okOrObjB (jget og "metadata") &&
    (listElems (jget og "stackRanks")).all wfRank &&
    (listElems (jget (mdOfOg og) "stackRanks")).all wfRank &&
    okOrArrB (jget (mdOfOg og) "textureMetadata") &&
    (listElems (jget (mdOfOg og) "textureMetadata")).all isObj

/-- A well-formed raw section: every container the normalizer accesses has
the type the code expects where it is truthy; fields may freely be absent
or falsy. -/
def wfSection (sec : JSON) : Bool :=
  isObj sec && okOrObjB (jget sec "section") && okOrObjB (jget sec "content") &&
    okOrObjB (jget (baseOf sec) "metadata") && okOrObjB (jget sec "metadata") &&
    okOrObjB (jget (metaOfS sec) "background") &&
    okOrArrB (jget (metaOfS sec) "offerGroups") &&
    (ogElemsT (metaOfS sec)).all wfOg &&
    (listElems (jget sec "stackRanks")).all wfRank &&
    (listElems (jget (baseOf sec) "stackRanks")).all wfRank &&
    (listElems (jget (metaOfS sec) "stackRanks")).all wfRank

/-- The resolved `background` dict of the metadata. -/
def bgOf (meta : JSON) : JSON :=
  if truthy (jget meta "background") then jget meta "background" else .obj []

/-- The flat candidate sequence of a section, total model. -/
def candidatesT (sec : JSON) : List JSON := candListT sec (baseOf sec) (metaOfS sec)

/-- The `(context, productTag)` groups of a section, total model. -/
def groupsOfT (sec : JSON) : List (GroupKey × List JSON) := groupsT (candidatesT sec) []

/-- The derived validity windows of a section, total model. -/
def windowsT (sec : JSON) : List Window := windowsTG (groupsOfT sec)

/-- The total model of `normalize_section` on well-formed sections. -/
def canonicalT (sec : JSON) : CanonicalSection :=
  { sectionId := resolveField (baseOf sec) ["sectionId", "sectionID", "id", "section_id", "name"],
    displayName := resolveField (baseOf sec) ["displayName", "title", "sectionDisplayName"],
    customTexture := jget (bgOf (metaOfS sec)) "customTexture",
    offerGroupsCount := (ogElemsT (metaOfS sec)).length,
    hasTextureMetadata := !(texturesT (ogElemsT (metaOfS sec))).isEmpty,
    textureUrls := dedupFirst (texturesT (ogElemsT (metaOfS sec))),
    stackRankStart := startMinT (windowsT sec) }

theorem wfRank_isObj {s : JSON} (h : wfRank s = true) : isObj s = true := by
  simp only [wfRank, Bool.and_eq_true] at h
  exact h.1.1.1

theorem wfRank_hashable {s : JSON} (h : wfRank s = true) :
    (hashable (jget s "context") && hashable (jget s "productTag")) = true := by
  simp only [wfRank, Bool.and_eq_true] at h
  simp [h.1.2, h.2]

theorem wfRank_sortable {s : JSON} (h : wfRank s = true)
    (ht : truthy (jget s "startDate") = true) : sortable s = true := by
  simp only [wfRank, Bool.and_eq_true] at h
  have h2 := h.1.1.2
  rw [ht] at h2
  simp only [Bool.not_true, Bool.false_or] at h2
  simp [sortable, h.1.1.1, h2]

theorem wf_cands_wfRank {sec : JSON} (hwf : wfSection sec = true) :
    ∀ s ∈ candidatesT sec, wfRank s = true := by
  simp only [wfSection, Bool.and_eq_true] at hwf
  intro s hs
  rw [candidatesT, candListT] at hs
  simp only [List.append_assoc, List.mem_append] at hs
  rcases hs with hs | hs | hs | hs
  · exact List.all_eq_true.mp hwf.1.1.2 s hs
  · exact List.all_eq_true.mp hwf.1.2 s hs
  · exact List.all_eq_true.mp hwf.2 s hs
  · obtain ⟨l, hl, hsl⟩ := List.mem_flatten.mp hs
    obtain ⟨og, hog, rfl⟩ := List.mem_map.mp hl
    have hwfog : wfOg og = true := List.all_eq_true.mp hwf.1.1.1.2 og hog
    simp only [wfOg, Bool.and_eq_true] at hwfog
    rw [ogRanksT, if_pos hwfog.1.1.1.1.1] at hsl
    split at hsl
    · exact List.all_eq_true.mp hwfog.1.1.1.2 s hsl
    · exact List.all_eq_true.mp hwfog.1.1.2 s hsl

theorem windowsTG_mem {gs : List (GroupKey × List JSON)} {w : Window}
    (h : w ∈ windowsTG gs) : ∃ g ∈ gs, w ∈ chainWindows (sortRanksP g.2) := by
  rw [windowsTG] at h
  obtain ⟨l, hl, hw⟩ := List.mem_flatten.mp h
  obtain ⟨g, hg, rfl⟩ := List.mem_map.mp hl
  exact ⟨g, hg, hw⟩

theorem wf_group_items {sec : JSON} (hwf : wfSection sec = true) :
    ∀ g ∈ groupsOfT sec, ∀ s ∈ g.2,
      wfRank s = true ∧ admitted s = true ∧ sortable s = true := by
  intro g hg s hs
  rcases groupsT_item_cases g hg s hs with ⟨g0, hg0, _⟩ | ⟨hmem, hadm⟩
  · simp at hg0
  · have hwfr := wf_cands_wfRank hwf s hmem
    have ht : truthy (jget s "startDate") = true := by
      simp only [admitted, Bool.and_eq_true] at hadm
      exact hadm.1
    exact ⟨hwfr, hadm, wfRank_sortable hwfr ht⟩

theorem wf_windows_start {sec : JSON} (hwf : wfSection sec = true) :
    ∀ w ∈ windowsT sec, truthy w.startDate = true ∧ isStrVal w.startDate = true := by
  intro w hw
  obtain ⟨g, hg, hwc⟩ := windowsTG_mem hw
  obtain ⟨s, hsmem, hval⟩ := chainWindows_start_mem hwc
  have hs2 : s ∈ g.2 := (sortRanksP_perm g.2).mem_iff.mp hsmem
  obtain ⟨hwfr, hadm, hsort⟩ := wf_group_items hwf g hg s hs2
  simp only [admitted, Bool.and_eq_true] at hadm
  refine ⟨by rw [hval]; exact hadm.1, ?_⟩
  rw [hval]
  simp only [wfRank, Bool.and_eq_true] at hwfr
  have h2 := hwfr.1.1.2
  rw [hadm.1] at h2
  simpa [sdOf] using h2

/-- The master equation: on every well-formed section the normalizer
succeeds and produces exactly the total model `canonicalT`. -/
theorem normalize_section_eq {sec : JSON} (hwf : wfSection sec = true) :
    normalize_section sec = .ok (canonicalT sec) := by
  have hwf0 := hwf
  simp only [wfSection, Bool.and_eq_true] at hwf
  obtain ⟨⟨⟨⟨⟨⟨⟨⟨⟨⟨h1, h2⟩, h3⟩, h4⟩, h5⟩, h6⟩, h7⟩, h8⟩, h9⟩, h10⟩, h11⟩ := hwf
  have hbase : isObj (baseOf sec) = true := isObj_baseOf h1 h2 h3
  have hmeta : isObj (metaOfS sec) = true := isObj_metaOf h1 h4 h5
  have hcands := wf_cands_wfRank hwf0
  have hrm : resolveMeta sec (baseOf sec) = .ok (metaOfS sec) := resolveMeta_eq h1 hbase
  have hogmd : ∀ og ∈ ogElemsT (metaOfS sec), isObj og = true →
      okOrObjB (jget og "metadata") = true := by
    intro og hog _
    have hwfog := List.all_eq_true.mp h8 og hog
    simp only [wfOg, Bool.and_eq_true] at hwfog
    exact hwfog.1.1.1.1.2
  have hw1 : collectStackRanks sec (baseOf sec) (metaOfS sec) = .ok (candidatesT sec) :=
    collectStackRanks_eq h1 hbase hmeta h7 hogmd
  have hw2 : buildGroups (candidatesT sec) [] = .ok (groupsOfT sec) :=
    buildGroups_eq fun s hs =>
      ⟨wfRank_isObj (hcands s hs), fun _ => wfRank_hashable (hcands s hs)⟩
  have hw3 : deriveAllWindows (groupsOfT sec) = .ok (windowsT sec) :=
    deriveAllWindows_eq fun g hg s hs => (wf_group_items hwf0 g hg s hs).2.2
  have hbg : isObj (bgOf (metaOfS sec)) = true := by
    rw [bgOf]
    split
    · simp_all [okOrObjB]
    · rfl
  have htexcond : ∀ og ∈ listElems (jget (metaOfS sec) "offerGroups"),
      isObj og = true ∧ okOrObjB (jget og "metadata") = true ∧
      okOrArrB (jget (mdOfOg og) "textureMetadata") = true ∧
      ∀ t ∈ listElems (jget (mdOfOg og) "textureMetadata"), isObj t = true := by
    intro og hog
    have hwfog := List.all_eq_true.mp h8 og hog
    simp only [wfOg, Bool.and_eq_true] at hwfog
    exact ⟨hwfog.1.1.1.1.1, hwfog.1.1.1.1.2, hwfog.1.2,
      fun t ht => List.all_eq_true.mp hwfog.2 t ht⟩
  have htex : texturesAll (listElems (jget (metaOfS sec) "offerGroups")) =
      .ok (texturesT (ogElemsT (metaOfS sec))) := texturesAll_eq htexcond
  have hstart : stackRankStartOf (windowsT sec) = .ok (startMinT (windowsT sec)) :=
    stackRankStartOf_eq (wf_windows_start hwf0)
  rw [normalize_section, resolveBase_eq h1, exc_bind_ok, hrm, exc_bind_ok,
    windowsOf, hw1, exc_bind_ok, hw2, exc_bind_ok, hw3, exc_bind_ok,
    pyGet_eq hmeta, exc_bind_ok]
  rw [show (if truthy (jget (metaOfS sec) "background") then jget (metaOfS sec) "background"
      else JSON.obj []) = bgOf (metaOfS sec) from rfl, pyGet_eq hbg, exc_bind_ok,
    getOgListVal_eq hmeta, exc_bind_ok, pyLen_okOrArr h7, exc_bind_ok,
    pyIter_okOrArr h7, exc_bind_ok, htex, exc_bind_ok, hstart, exc_bind_ok]
  rfl

/-! ## 4.6 Date Bucketing (`main`, `ItemShop.py` lines 135-154)

`to_jst_date_str` is modelled with an explicit ISO-8601 parser: the code
parses `datetime.fromisoformat(iso.replace("Z", "+00:00"))`, shifts to the
fixed UTC+9 zone and formats `%Y-%m-%d`.  The parser below accepts the
ISO-8601 shapes the catalog pipeline handles (`YYYY-MM-DD`, optionally
`THH:MM[:SS[.f{1-6}]]` and a `+HH:MM`/`-HH:MM` offset, the `Z` having been
replaced); a string without an offset is treated as UTC, where Python would
use the host timezone - that choice only moves the day key, never whether a
section is included.  Any string the parser rejects is a parse failure,
which the code turns into `None`. -/

/-- The decimal value of an ASCII digit. -/
def digitVal (c : Char) : Option Nat :=
  if 48 ≤ c.val.toNat && c.val.toNat ≤ 57 then some (c.val.toNat - 48) else none

/-- Two decimal digits. -/
def parse2 : List Char → Option (Nat × List Char)
  | a :: b :: rest => do
    let x ← digitVal a
    let y ← digitVal b
    some (10 * x + y, rest)
  | _ => none

/-- Four decimal digits. -/
def parse4 : List Char → Option (Nat × List Char)
  | a :: b :: c :: d :: rest => do
    let x ← digitVal a
    let y ← digitVal b
    let z ← digitVal c
    let w ← digitVal d
    some (1000 * x + 100 * y + 10 * z + w, rest)
  | _ => none

/-- Consume one expected character. -/
def expectChar (c : Char) : List Char → Option (List Char)
  | x :: rest => if x = c then some rest else none
  | [] => none

/-- A parsed timestamp: date, time and UTC offset in minutes. -/
structure DT where
  year : Nat
  month : Nat
  day : Nat
  hour : Nat
  minute : Nat
  second : Nat
  offMin : Int
deriving Repr, DecidableEq

/-- Days in a month, Gregorian rules. -/
def daysInMonth (y m : Nat) : Nat :=
  if m = 2 then (if (y % 4 = 0 && y % 100 ≠ 0) || y % 400 = 0 then 29 else 28)
  else if m = 4 || m = 6 || m = 9 || m = 11 then 30 else 31

/-- Consume a fraction: one to six decimal digits (the value never moves the
calendar day, so it is discarded). -/
def parseFrac (cs : List Char) : Option (List Char) :=
  let digits := cs.takeWhile fun c => (digitVal c).isSome
  if 1 ≤ digits.length && digits.length ≤ 6 then some (cs.drop digits.length) else none

/-- Consume a `+HH:MM`/`-HH:MM` offset, or nothing (no offset = UTC here). -/
def parseOffset : List Char → Option (Int × List Char)
  | [] => some (0, [])
  | c :: rest =>
    if c = '+' || c = '-' then do
      let (hh, r1) ← parse2 rest
      let r2 ← expectChar ':' r1
      let (mm, r3) ← parse2 r2
      if hh ≤ 23 && mm ≤ 59 then
        some ((if c = '-' then -(hh * 60 + mm : Int) else (hh * 60 + mm : Int)), r3)
      else none
    else none

/-- The model of `datetime.fromisoformat` on the pipeline's inputs. -/
def parseIso (cs : List Char) : Option DT := do
  let (y, r1) ← parse4 cs
  let r2 ← expectChar '-' r1
  let (mo, r3) ← parse2 r2
  let r4 ← expectChar '-' r3
  let (d, r5) ← parse2 r4
  if !(1 ≤ mo && mo ≤ 12 && 1 ≤ d && d ≤ daysInMonth y mo) then none
  else
    match r5 with
    | [] => some ⟨y, mo, d, 0, 0, 0, 0⟩
    | 'T' :: r6 => do
      let (hh, r7) ← parse2 r6
      let r8 ← expectChar ':' r7
      let (mi, r9) ← parse2 r8
      if !(hh ≤ 23 && mi ≤ 59) then none
      else do
        let (ss, r10) ←
          match r9 with
          | ':' :: r => do
            let (ss, r') ← parse2 r
            if ss ≤ 59 then some (ss, r') else none
          | _ => some (0, r9)
        let r11 ←
          match r10 with
          | '.' :: r => parseFrac r
          | _ => some r10
        let (off, r12) ← parseOffset r11
        if r12 = [] then some ⟨y, mo, d, hh, mi, ss, off⟩ else none
    | _ => none

/-- Days since the epoch of a Gregorian civil date (Hinnant's algorithm,
with floor division). -/
def daysFromCivil (y m d : Int) : Int :=
  let y2 := if m ≤ 2 then y - 1 else y
  let era := y2.fdiv 400
  let yoe := y2 - era * 400
  let mp := (m + 9).emod 12
  let doy := (153 * mp + 2).fdiv 5 + d - 1
  let doe := yoe * 365 + yoe.fdiv 4 - yoe.fdiv 100 + doy
  era * 146097 + doe - 719468

/-- The civil date of a day count since the epoch. -/
def civilFromDays (z0 : Int) : Int × Int × Int :=
  let z := z0 + 719468
  let era := z.fdiv 146097
  let doe := z - era * 146097
  let yoe := (doe - doe.fdiv 1460 + doe.fdiv 36524 - doe.fdiv 146096).fdiv 365
  let y := yoe + era * 400
  let doy := doe - (365 * yoe + yoe.fdiv 4 - yoe.fdiv 100)
  let mp := (5 * doy + 2).fdiv 153
  let d := doy - (153 * mp + 2).fdiv 5 + 1
  let m := mp + (if mp < 10 then 3 else -9)
  (y + (if m ≤ 2 then 1 else 0), m, d)

/-- Zero-pad to two digits (`%m`, `%d`). -/
def pad2 (n : Int) : String :=
  let m := n.toNat
  if m < 10 then "0" ++ toString m else toString m

/-- Zero-pad to four digits (`%Y`). -/
def pad4 (n : Int) : String :=
  let m := n.toNat
  if m < 10 then "000" ++ toString m
  else if m < 100 then "00" ++ toString m
  else if m < 1000 then "0" ++ toString m
  else toString m

/-- `dt.astimezone(JST).strftime("%Y-%m-%d")`: shift to UTC+9 and format the
calendar day. -/
def toJstDayKey (dt : DT) : String :=
  let total : Int := daysFromCivil dt.year dt.month dt.day * 86400 +
    (dt.hour : Int) * 3600 + (dt.minute : Int) * 60 + (dt.second : Int) -
    dt.offMin * 60 + 9 * 3600
  let c := civilFromDays (total.fdiv 86400)
  pad4 c.1 ++ "-" ++ pad2 c.2.1 ++ "-" ++ pad2 c.2.2

/-- `iso_str.replace("Z", "+00:00")` (Python replaces every occurrence). -/
def replaceZ : List Char → List Char
  | [] => []
  | c :: rest =>
    if c = 'Z' then '+' :: '0' :: '0' :: ':' :: '0' :: '0' :: replaceZ rest
    else c :: replaceZ rest

/-- `to_jst_date_str` (`ItemShop.py` lines 137-146): `None` for a falsy
value; a non-string raises inside the `try` and yields `None`; a string is
parsed (`Z` replaced by `+00:00`) and formatted as a JST day, with a parse
failure yielding `None`. -/
def to_jst_date_str (v : JSON) : Option String :=
  if truthy v then
    match v with
    | .str s => (parseIso (replaceZ s.data)).map toJstDayKey
    | _ => none
  else none

/-- The day key of a normalized section row. -/
def dayKeyOf (row : CanonicalSection) : Option String :=
  to_jst_date_str row.stackRankStart

/-- `bucket.setdefault(d, []).append(row)` over a String-keyed dict. -/
def addBucket : List (String × List CanonicalSection) → String → CanonicalSection →
    List (String × List CanonicalSection)
  | [], d, r => [(d, [r])]
  | (d', rs) :: rest, d, r =>
    if d' = d then (d', rs ++ [r]) :: rest
    else (d', rs) :: addBucket rest d r

/-- The bucketing loop of `main` (lines 149-154): rows whose day key is
`None` or empty are skipped, the others are appended to their day's list. -/
def buildBucket : List CanonicalSection → List (String × List CanonicalSection) →
    List (String × List CanonicalSection)
  | [], b => b
  | r :: rest, b =>
    match dayKeyOf r with
    | some d => if d = "" then buildBucket rest b else buildBucket rest (addBucket b d r)
    | none => buildBucket rest b

/-- Lookup of one day's bucket. -/
def bucketOf (b : List (String × List CanonicalSection)) (d : String) :
    Option (List CanonicalSection) :=
  (b.find? fun e => e.1 = d).map (·.2)


theorem bucketOf_cons (d0 : String) (rs : List CanonicalSection)
    (rest : List (String × List CanonicalSection)) (d : String) :
    bucketOf ((d0, rs) :: rest) d = if d0 = d then some rs else bucketOf rest d := by
  by_cases h : d0 = d
  · simp [bucketOf, List.find?, h]
  · simp [bucketOf, List.find?, h]

theorem buildBucket_cons_none {r : CanonicalSection} {rest : List CanonicalSection}
    {b : List (String × List CanonicalSection)} (hk : dayKeyOf r = none) :
    buildBucket (r :: rest) b = buildBucket rest b := by
  rw [buildBucket, hk]

theorem buildBucket_cons_some {r : CanonicalSection} {rest : List CanonicalSection}
    {b : List (String × List CanonicalSection)} {d : String} (hk : dayKeyOf r = some d) :
    buildBucket (r :: rest) b =
      if d = "" then buildBucket rest b else buildBucket rest (addBucket b d r) := by
  rw [buildBucket, hk]

theorem bucketOf_addBucket_self : ∀ (b : List (String × List CanonicalSection))
    (d : String) (r : CanonicalSection),
    bucketOf (addBucket b d r) d = some ((bucketOf b d).getD [] ++ [r])
  | [], d, r => by
    rw [show addBucket [] d r = [(d, [r])] from rfl, bucketOf_cons, if_pos rfl]
    rfl
  | (d0, rs) :: rest, d, r => by
    rw [addBucket]
    by_cases hd : d0 = d
    · rw [if_pos hd, bucketOf_cons, if_pos hd, bucketOf_cons, if_pos hd]
      rfl
    · rw [if_neg hd, bucketOf_cons, if_neg hd, bucketOf_cons, if_neg hd]
      exact bucketOf_addBucket_self rest d r

theorem bucketOf_addBucket_other : ∀ (b : List (String × List CanonicalSection))
    (d d' : String) (r : CanonicalSection), d' ≠ d →
    bucketOf (addBucket b d r) d' = bucketOf b d'
  | [], d, d', r, h => by
    rw [show addBucket [] d r = [(d, [r])] from rfl, bucketOf_cons,
      if_neg fun he => h he.symm]
  | (d0, rs) :: rest, d, d', r, h => by
    rw [addBucket]
    by_cases hd : d0 = d
    · subst hd
      rw [if_pos rfl, bucketOf_cons, bucketOf_cons,
        if_neg fun he => h he.symm, if_neg fun he => h he.symm]
    · rw [if_neg hd, bucketOf_cons, bucketOf_cons]
      by_cases h0 : d0 = d'
      · rw [if_pos h0, if_pos h0]
      · rw [if_neg h0, if_neg h0]
        exact bucketOf_addBucket_other rest d d' r h

theorem buildBucket_lookup : ∀ (rows : List CanonicalSection)
    (b : List (String × List CanonicalSection)) (d : String), d ≠ "" →
    bucketOf (buildBucket rows b) d =
      (match bucketOf b d with
       | some l => some (l ++ rows.filter fun r => dayKeyOf r == some d)
       | none =>
         if (rows.filter fun r => dayKeyOf r == some d).isEmpty then none
         else some (rows.filter fun r => dayKeyOf r == some d))
  | [], b, d, hd => by
    cases hb : bucketOf b d <;> simp [buildBucket, hb]
  | r :: rest, b, d, hd => by
    cases hk : dayKeyOf r with
    | none =>
      rw [buildBucket_cons_none hk, List.filter_cons_of_neg (by simp [hk])]
      exact buildBucket_lookup rest b d hd
    | some dk =>
      rw [buildBucket_cons_some hk]
      by_cases hdk : dk = ""
      · subst hdk
        rw [if_pos rfl, List.filter_cons_of_neg (by
          simp only [hk, beq_iff_eq, Option.some_inj]
          intro he
          exact hd he.symm)]
        exact buildBucket_lookup rest b d hd
      · rw [if_neg hdk]
        by_cases hded : dk = d
        · subst hded
          rw [List.filter_cons_of_pos (by simp [hk])]
          rw [buildBucket_lookup rest (addBucket b dk r) dk hd,
            bucketOf_addBucket_self b dk r]
          cases hb : bucketOf b dk with
          | some l => simp [hb]
          | none => simp [hb]
        · rw [List.filter_cons_of_neg (by
            simp only [hk, beq_iff_eq, Option.some_inj]
            intro he
            exact hded he),
            buildBucket_lookup rest (addBucket b dk r) d hd,
            bucketOf_addBucket_other b dk d r (Ne.symm hded)]

theorem addBucket_item_cases : ∀ {b : List (String × List CanonicalSection)}
    {d : String} {r : CanonicalSection},
    ∀ e ∈ addBucket b d r, ∀ x ∈ e.2, (∃ e0 ∈ b, x ∈ e0.2) ∨ x = r
  | [], d, r => by
    intro e he x hx
    simp only [addBucket, List.mem_singleton] at he
    subst he
    simp only [List.mem_singleton] at hx
    exact Or.inr hx
  | (d0, rs) :: rest, d, r => by
    intro e he x hx
    rw [addBucket] at he
    by_cases hd : d0 = d
    · rw [if_pos hd] at he
      rcases List.mem_cons.mp he with he | he
      · subst he
        rcases List.mem_append.mp hx with hx2 | hx2
        · exact Or.inl ⟨(d0, rs), by simp, hx2⟩
        · simp only [List.mem_singleton] at hx2
          exact Or.inr hx2
      · exact Or.inl ⟨e, by simp [he], hx⟩
    · rw [if_neg hd] at he
      rcases List.mem_cons.mp he with he | he
      · subst he
        exact Or.inl ⟨(d0, rs), by simp, hx⟩
      · rcases addBucket_item_cases e he x hx with ⟨e0, he0, hx0⟩ | hxr
        · exact Or.inl ⟨e0, by simp [he0], hx0⟩
        · exact Or.inr hxr

theorem buildBucket_item_inv : ∀ {rows : List CanonicalSection}
    {b : List (String × List CanonicalSection)},
    ∀ e ∈ buildBucket rows b, ∀ x ∈ e.2,
      (∃ e0 ∈ b, x ∈ e0.2) ∨ (x ∈ rows ∧ ∃ d, dayKeyOf x = some d ∧ d ≠ "")
  | [], b => by
    intro e he x hx
    exact Or.inl ⟨e, he, hx⟩
  | r :: rest, b => by
    intro e he x hx
    cases hk : dayKeyOf r with
    | none =>
      rw [buildBucket_cons_none hk] at he
      rcases buildBucket_item_inv e he x hx with hb | ⟨hmem, hkey⟩
      · exact Or.inl hb
      · exact Or.inr ⟨List.mem_cons_of_mem _ hmem, hkey⟩
    | some dk =>
      rw [buildBucket_cons_some hk] at he
      by_cases hdk : dk = ""
      · rw [if_pos hdk] at he
        rcases buildBucket_item_inv e he x hx with hb | ⟨hmem, hkey⟩
        · exact Or.inl hb
        · exact Or.inr ⟨List.mem_cons_of_mem _ hmem, hkey⟩
      · rw [if_neg hdk] at he
        rcases buildBucket_item_inv e he x hx with ⟨e0, he0, hx0⟩ | ⟨hmem, hkey⟩
        · rcases addBucket_item_cases e0 he0 x hx0 with hb | hxr
          · exact Or.inl hb
          · subst hxr
            exact Or.inr ⟨by simp, dk, hk, hdk⟩
        · exact Or.inr ⟨List.mem_cons_of_mem _ hmem, hkey⟩

/-- On a well-formed section the monadic aggregator returns exactly the
total-model windows. -/
theorem derivedWindows_eq {sec : JSON} (hwf : wfSection sec = true) :
    derivedWindows sec = .ok (windowsT sec) := by
  have hwf0 := hwf
  simp only [wfSection, Bool.and_eq_true] at hwf
  obtain ⟨⟨⟨⟨⟨⟨⟨⟨⟨⟨h1, h2⟩, h3⟩, h4⟩, h5⟩, h6⟩, h7⟩, h8⟩, h9⟩, h10⟩, h11⟩ := hwf
  have hbase : isObj (baseOf sec) = true := isObj_baseOf h1 h2 h3
  have hmeta : isObj (metaOfS sec) = true := isObj_metaOf h1 h4 h5
  have hrm : resolveMeta sec (baseOf sec) = .ok (metaOfS sec) := resolveMeta_eq h1 hbase
  have hogmd : ∀ og ∈ ogElemsT (metaOfS sec), isObj og = true →
      okOrObjB (jget og "metadata") = true := by
    intro og hog _
    have hwfog := List.all_eq_true.mp h8 og hog
    simp only [wfOg, Bool.and_eq_true] at hwfog
    exact hwfog.1.1.1.1.2
  have hw1 : collectStackRanks sec (baseOf sec) (metaOfS sec) = .ok (candidatesT sec) :=
    collectStackRanks_eq h1 hbase hmeta h7 hogmd
  have hw2 : buildGroups (candidatesT sec) [] = .ok (groupsOfT sec) :=
    buildGroups_eq fun s hs =>
      ⟨wfRank_isObj (wf_cands_wfRank hwf0 s hs),
        fun _ => wfRank_hashable (wf_cands_wfRank hwf0 s hs)⟩
  have hw3 : deriveAllWindows (groupsOfT sec) = .ok (windowsT sec) :=
    deriveAllWindows_eq fun g hg s hs => (wf_group_items hwf0 g hg s hs).2.2
  rw [derivedWindows, resolveBase_eq h1, exc_bind_ok, hrm, exc_bind_ok,
    windowsOf, hw1, exc_bind_ok, hw2, exc_bind_ok, hw3]

/-- The string key of a window. -/
def wkey (w : Window) : String :=
  match w.startDate with
  | .str d => d
  | _ => ""

theorem wkey_of_str {w : Window} (h : isStrVal w.startDate = true) :
    w.startDate = .str (wkey w) := by
  rw [wkey]
  cases hv : w.startDate <;> simp_all [isStrVal]

theorem startKeys_eq_map (ws : List Window) : startKeys ws = ws.map wkey := rfl

/-- `startMinT` really is the lexicographic minimum of the window start
dates: it is one of them and lexicographically at most each of them. -/
theorem startMinT_spec {ws : List Window}
    (h : ∀ w ∈ ws, isStrVal w.startDate = true) :
    (ws = [] → startMinT ws = .null) ∧
    (ws ≠ [] → ∃ d : String, startMinT ws = .str d ∧
      (∃ w ∈ ws, w.startDate = .str d) ∧
      ∀ w ∈ ws, ∃ e : String, w.startDate = .str e ∧ strLe d e = true) := by
  constructor
  · intro he
    subst he
    rfl
  · intro hne
    cases hws : ws with
    | nil => exact absurd hws hne
    | cons w rest =>
      subst hws
      have hk : startKeys (w :: rest) = wkey w :: (rest.map wkey) := rfl
      refine ⟨strMinList (wkey w) (rest.map wkey), ?_, ?_, ?_⟩
      · rw [startMinT, hk]
      · rcases strMinList_mem (rest.map wkey) (wkey w) with hm | hm
        · exact ⟨w, by simp, by rw [hm]; exact wkey_of_str (h w (by simp))⟩
        · obtain ⟨w', hw', hval⟩ := List.mem_map.mp hm
          refine ⟨w', List.mem_cons_of_mem _ hw', ?_⟩
          rw [← hval]
          exact wkey_of_str (h w' (List.mem_cons_of_mem _ hw'))
      · intro w' hw'
        obtain ⟨hle1, hle2⟩ := strMinList_le (rest.map wkey) (wkey w)
        refine ⟨wkey w', wkey_of_str (h w' hw'), ?_⟩
        rcases List.mem_cons.mp hw' with hw2 | hw2
        · subst hw2
          exact hle1
        · exact hle2 (wkey w') (List.mem_map_of_mem wkey hw2)

/-! ## Duplicate collection of top-level `stackRanks` (support for C10) -/

theorem mem_of_getElem?_some {α : Type} {l : List α} {i : Nat} {a : α}
    (h : l[i]? = some a) : a ∈ l := by
  obtain ⟨hlt, rfl⟩ := List.getElem?_eq_some_iff.mp h
  exact List.getElem_mem hlt

theorem pyKeyEq_refl {a : JSON} (h : hashable a = true) : pyKeyEq a a = true := by
  cases a <;> simp_all [hashable, pyKeyEq, intOf]

theorem keyEq_refl_of_wfRank {s : JSON} (h : wfRank s = true) :
    keyEq (keyOf s) (keyOf s) = true := by
  have hh := wfRank_hashable h
  simp only [Bool.and_eq_true] at hh
  simp [keyEq, keyOf, pyKeyEq_refl hh.1, pyKeyEq_refl hh.2]

/-- The items of the first group whose key equals `k` (empty when none). -/
def findGroup (gs : List (GroupKey × List JSON)) (k : GroupKey) : List JSON :=
  ((gs.find? fun g => keyEq g.1 k).map (·.2)).getD []

theorem findGroup_cons (k1 : GroupKey) (items : List JSON)
    (rest : List (GroupKey × List JSON)) (k : GroupKey) :
    findGroup ((k1, items) :: rest) k =
      if keyEq k1 k then items else findGroup rest k := by
  by_cases h : keyEq k1 k = true
  · simp [findGroup, List.find?, h]
  · simp only [Bool.not_eq_true] at h
    simp [findGroup, List.find?, h]

theorem addToGroups_findGroup_self : ∀ (gs : List (GroupKey × List JSON))
    (k : GroupKey) (x : JSON), keyEq k k = true →
    findGroup (addToGroups gs k x) k = findGroup gs k ++ [x]
  | [], k, x, h => by
    rw [show addToGroups [] k x = [(k, [x])] from rfl, findGroup_cons, if_pos h]
    rfl
  | (k1, items) :: rest, k, x, h => by
    rw [addToGroups]
    by_cases h1 : keyEq k1 k = true
    · rw [if_pos h1, findGroup_cons, if_pos h1, findGroup_cons, if_pos h1]
    · rw [if_neg h1, findGroup_cons, if_neg h1, findGroup_cons, if_neg h1]
      exact addToGroups_findGroup_self rest k x h

theorem addToGroups_findGroup_sub : ∀ (gs : List (GroupKey × List JSON))
    (k : GroupKey) (x : JSON) (k' : GroupKey),
    ∃ l, findGroup (addToGroups gs k x) k' = findGroup gs k' ++ l ∧
      (l = [] ∨ l = [x])
  | [], k, x, k' => by
    rw [show addToGroups [] k x = [(k, [x])] from rfl, findGroup_cons]
    by_cases h : keyEq k k' = true
    · rw [if_pos h]
      exact ⟨[x], by simp [findGroup], Or.inr rfl⟩
    · rw [if_neg h]
      exact ⟨[], by simp [findGroup], Or.inl rfl⟩
  | (k1, items) :: rest, k, x, k' => by
    rw [addToGroups]
    by_cases h1 : keyEq k1 k = true
    · rw [if_pos h1, findGroup_cons, findGroup_cons]
      by_cases h2 : keyEq k1 k' = true
      · rw [if_pos h2, if_pos h2]
        exact ⟨[x], rfl, Or.inr rfl⟩
      · rw [if_neg h2, if_neg h2]
        exact ⟨[], by simp, Or.inl rfl⟩
    · rw [if_neg h1, findGroup_cons, findGroup_cons]
      by_cases h2 : keyEq k1 k' = true
      · rw [if_pos h2, if_pos h2]
        exact ⟨[], by simp, Or.inl rfl⟩
      · rw [if_neg h2, if_neg h2]
        exact addToGroups_findGroup_sub rest k x k'

theorem groupsT_count_ge : ∀ {cands : List JSON} {gs0 : List (GroupKey × List JSON)}
    {s : JSON}, admitted s = true → keyEq (keyOf s) (keyOf s) = true →
    cands.count s + (findGroup gs0 (keyOf s)).count s ≤
      (findGroup (groupsT cands gs0) (keyOf s)).count s
  | [], gs0, s, _, _ => by simp [groupsT]
  | c :: rest, gs0, s, hadm, hke => by
    rw [groupsT]
    by_cases hc : c = s
    · subst hc
      rw [if_pos hadm]
      have h1 := addToGroups_findGroup_self gs0 (keyOf c) c hke
      have h2 := @groupsT_count_ge rest (addToGroups gs0 (keyOf c) c) c hadm hke
      rw [h1] at h2
      simp only [List.count_append, List.count_cons, List.count_singleton] at *
      omega
    · have hcount : (c :: rest).count s = rest.count s := by
        simp [List.count_cons, hc]
      rw [hcount]
      by_cases hadmc : admitted c = true
      · rw [if_pos hadmc]
        obtain ⟨l, hl, hcase⟩ := addToGroups_findGroup_sub gs0 (keyOf c) c (keyOf s)
        have h2 := @groupsT_count_ge rest (addToGroups gs0 (keyOf c) c) s hadm hke
        rw [hl] at h2
        have hlcount : l.count s ≤ 1 := by
          rcases hcase with h | h <;> subst h
          · simp
          · by_cases hcs : c = s
            · exact absurd hcs hc
            · simp [List.count_cons, hcs]
        simp only [List.count_append] at h2
        omega
      · rw [if_neg hadmc]
        exact groupsT_count_ge hadm hke

theorem strLe_antisymm {a b : String} (h1 : strLe a b = true) (h2 : strLe b a = true) :
    a = b := by
  simp only [strLe, Bool.not_eq_true'] at h1 h2
  exact strLt_antisymm h2 h1

/-- In a sorted run with at least two items of key `d`, some adjacent pair
both have key `d`. -/
theorem sorted_two_adjacent : ∀ {l : List JSON}, SortedRanks l → ∀ {d : String},
    2 ≤ (l.countP fun x => sdKey x == d) →
    ∃ i x y, l[i]? = some x ∧ l[i + 1]? = some y ∧ sdKey x = d ∧ sdKey y = d
  | [], _, d, hc => by
    rw [List.countP_nil] at hc
    omega
  | x :: rest, hs, d, hc => by
    rw [SortedRanks, List.pairwise_cons] at hs
    obtain ⟨hx, hrest⟩ := hs
    by_cases hxd : sdKey x = d
    · cases rest with
      | nil =>
        rw [List.countP_cons, List.countP_nil] at hc
        split at hc <;> omega
      | cons y rest2 =>
        have hyd : sdKey y = d := by
          have hcr : 1 ≤ ((y :: rest2).countP fun z => sdKey z == d) := by
            rw [List.countP_cons] at hc
            have hb : (sdKey x == d) = true := by simp [hxd]
            rw [hb, if_pos rfl] at hc
            omega
          have hpos : 0 < ((y :: rest2).countP fun z => sdKey z == d) := by omega
          obtain ⟨z, hz, hzd0⟩ := List.countP_pos_iff.mp hpos
          have hzd : sdKey z = d := by simpa using hzd0
          have h1 : strLe (sdKey x) (sdKey y) = true := hx y (by simp)
          rcases List.mem_cons.mp hz with hz2 | hz2
          · rw [← hz2, hzd]
          · have h2 : strLe (sdKey y) (sdKey z) = true := by
              rw [List.pairwise_cons] at hrest
              exact hrest.1 z hz2
            rw [hxd] at h1
            rw [hzd] at h2
            exact strLe_antisymm h2 h1
        exact ⟨0, x, y, by simp, by simp, hxd, hyd⟩
    · have hc2 : 2 ≤ (rest.countP fun z => sdKey z == d) := by
        rw [List.countP_cons] at hc
        have hb : (sdKey x == d) = false := by simp [hxd]
        rw [hb] at hc
        simp only [Bool.false_eq_true, if_false] at hc
        omega
      obtain ⟨i, a, b, ha, hb, had, hbd⟩ := sorted_two_adjacent hrest hc2
      exact ⟨i + 1, a, b, by simpa using ha, by simpa using hb, had, hbd⟩

/-- The i-th chained window of a run is built from its i-th and (i+1)-st
items. -/
theorem chainWindows_get : ∀ (l : List JSON) (i : Nat) (x y : JSON),
    l[i]? = some x → l[i + 1]? = some y →
    (chainWindows l)[i]? = some ⟨sdOf x, sdOf y⟩
  | [], i, x, y, hx, hy => by simp at hx
  | [x0], i, x, y, hx, hy => by
    rcases i with _ | i <;> simp at hy
  | x0 :: y0 :: rest, 0, x, y, hx, hy => by
    simp only [List.getElem?_cons_zero, Option.some_inj] at hx
    have hy0 : y0 = y := by simpa using hy
    subst hx
    subst hy0
    rw [chainWindows]
    simp
  | x0 :: y0 :: rest, i + 1, x, y, hx, hy => by
    rw [chainWindows]
    rw [List.getElem?_cons_succ] at hx hy
    rw [List.getElem?_cons_succ]
    exact chainWindows_get (y0 :: rest) i x y hx hy

theorem windowsTG_mem_intro {gs : List (GroupKey × List JSON)}
    {g : GroupKey × List JSON} (hg : g ∈ gs) {w : Window}
    (hw : w ∈ chainWindows (sortRanksP g.2)) : w ∈ windowsTG gs := by
  rw [windowsTG]
  exact List.mem_flatten.mpr ⟨_, List.mem_map_of_mem _ hg, hw⟩

theorem findGroup_mem {gs : List (GroupKey × List JSON)} {k : GroupKey}
    (h : findGroup gs k ≠ []) : ∃ g ∈ gs, g.2 = findGroup gs k := by
  cases hf : gs.find? (fun g => keyEq g.1 k) with
  | none =>
    rw [findGroup, hf] at h
    simp at h
  | some g =>
    refine ⟨g, List.mem_of_find?_eq_some hf, ?_⟩
    rw [findGroup, hf]
    rfl

/-! ## Claim-side models and concrete inputs -/

/-- The offer-group identifier as the specification words it (section 4.4):
the direct `offerGroupId` field, falling back to the nested metadata's
field; `none` for a non-object entry or when both are absent. -/
def specOfferGroupId (og : JSON) : Option JSON :=
  match og with
  | .obj kvs =>
    (match kvs.lookup "offerGroupId" with
     | some v => some v
     | none =>
       match kvs.lookup "metadata" with
       | some (.obj mkvs) => mkvs.lookup "offerGroupId"
       | _ => none)
  | _ => none

/-- The deduplicated counting policy claim C1 states (distinct identifiers
seen plus identifier-less entries, a repeated identifier never counted
twice), to compare against the code's raw list length. -/
def specOfferGroupsCount (ogs : List JSON) : Nat :=
  (ogs.filterMap specOfferGroupId).dedup.length +
    (ogs.filter fun og => (specOfferGroupId og).isNone).length

/-- An offer group with identifier `g1`. -/
def c1og : JSON := .obj [("offerGroupId", .str "g1")]

/-- A section whose metadata holds two offer groups that share the
identifier `g1`. -/
def c1sec : JSON := .obj [("metadata", .obj [("offerGroups", .arr [c1og, c1og])])]

/-- A section whose offerGroups array holds a non-object entry: the
`isinstance` guard of the stackRanks loop skips it, but the texture loop's
`og.get("metadata")` raises `AttributeError`. -/
def c2bad : JSON := .obj [("metadata", .obj [("offerGroups", .arr [.str "oops"])])]

/-- An incomplete but well-typed section: only a null `title`. -/
def c2wit : JSON := .obj [("title", .null)]

/-- Python comparison result on two string-valued startDates. -/
def jsonStrLe (a b : JSON) : Bool :=
  match a, b with
  | .str x, .str y => strLe x y
  | _, _ => false

/-- C3 witness data: two admitted candidates and one sentinel, sharing
`(context = "A", productTag = null)`. -/
def w3a : JSON := .obj [("startDate", .str "2025-09-10T00:00:00.000Z"), ("context", .str "A")]

/-- The sentinel candidate of the C3 scenario. -/
def w3sent : JSON := .obj [("startDate", .str "2023-01-01T00:00:00.000Z"), ("context", .str "A")]

/-- The later admitted candidate of the C3 scenario. -/
def w3b : JSON := .obj [("startDate", .str "2025-09-20T00:00:00.000Z"), ("context", .str "A")]

/-- C4 witness data: an admitted candidate. -/
def w4a : JSON := .obj [("startDate", .str "2025-09-12T00:00:00.000Z"), ("context", .str "B")]

/-- C4 witness data: a candidate with no startDate. -/
def w4miss : JSON := .obj [("context", .str "B")]

/-- C4 witness data: a sentinel-dated candidate. -/
def w4sent : JSON := .obj [("startDate", .str "2023-01-01T00:00:00.000Z"), ("context", .str "B")]

/-- C5 witness data: a well-formed section carrying three top-level window
candidates (one sentinel). -/
def c5sec : JSON := .obj [
  ("displayName", .str "Row"),
  ("stackRanks", .arr [
    .obj [("startDate", .str "2025-09-10T00:00:00.000Z"), ("context", .str "A")],
    .obj [("startDate", .str "2023-01-01T00:00:00.000Z"), ("context", .str "A")],
    .obj [("startDate", .str "2025-09-20T00:00:00.000Z"), ("context", .str "A")]])]

/-- The base resolution as claim C7 words it: the `section` value if that
key is present, else the `content` value if present, else the section
itself - presence, not truthiness. -/
def resolveBaseSpecC7 (sec : JSON) : JSON :=
  match sec with
  | .obj kvs =>
    (match kvs.lookup "section" with
     | some v => v
     | none =>
       match kvs.lookup "content" with
       | some v => v
       | none => sec)
  | _ => sec

/-- A section whose `section` key is present but empty (falsy) and whose
`content` carries a display name. -/
def c7sec : JSON := .obj [("section", .obj []), ("content", .obj [("displayName", .str "x")])]

/-- C7 witness data: a truthy `section` wrapper. -/
def c7wit : JSON := .obj [("section", .obj [("a", .num 1)])]

/-- The offer-group `stackRanks` fallback as claim C9 words it: the nested
metadata is consulted only when the direct field is ABSENT. -/
def ogRanksSpecC9 (og : JSON) : List JSON :=
  match og with
  | .obj kvs =>
    (match kvs.lookup "stackRanks" with
     | some v => listElems v
     | none => listElems (jget (mdOfOg og) "stackRanks"))
  | _ => []

/-- A window candidate for the C9 counterexample. -/
def c9rank : JSON := .obj [("startDate", .str "2025-09-10T00:00:00.000Z")]

/-- An offer group whose direct `stackRanks` is PRESENT but empty (falsy),
with a candidate in its metadata's `stackRanks`. -/
def c9og : JSON := .obj [("stackRanks", .arr []),
  ("metadata", .obj [("stackRanks", .arr [c9rank])])]

/-- C9 witness data: a section object carrying one candidate. -/
def c9wit : JSON := .obj [("stackRanks", .arr [c9rank])]

/-- C10 witness data: the single top-level candidate. -/
def c10rank : JSON := .obj [("startDate", .str "2025-09-10T00:00:00.000Z")]

/-- C10 witness data: a section with a top-level `stackRanks` list and no
`section`/`content` wrapper. -/
def c10sec : JSON := .obj [("stackRanks", .arr [c10rank])]

/-! ## The claims -/

/-- C1 (counterexample): on a section with two offer groups sharing the
identifier `g1` the code's `offerGroupsCount` is the raw list length 2,
while the claimed deduplicated policy (distinct identifiers + identifier-
less entries) yields 1, so the claim fails as stated. -/
theorem c1_counterexample :
    (normalize_section c1sec).toOption.map CanonicalSection.offerGroupsCount = some 2 ∧
    specOfferGroupsCount [c1og, c1og] = 1 ∧ (2 : Int) ≠ (1 : Int) :=
  ⟨by rfl, by rfl, by decide⟩

/-- C1 (amended): for every well-formed section, `offerGroupsCount` is
non-negative and equals the raw length of the resolved metadata's
`offerGroups` list - each entry counted once, a repeated identifier counted
per entry, never deduplicated. -/
theorem c1_count_raw_length {sec : JSON} {c : CanonicalSection}
    (hwf : wfSection sec = true) (hc : normalize_section sec = .ok c) :
    0 ≤ c.offerGroupsCount ∧
      c.offerGroupsCount = ((ogElemsT (metaOfS sec)).length : Int) := by
  rw [normalize_section_eq hwf] at hc
  injection hc with hc
  subst hc
  exact ⟨Int.natCast_nonneg _, rfl⟩

/-- C1 (witness): the amended count equation at the concrete two-group
section. -/
theorem c1_count_raw_length_witness :
    0 ≤ (canonicalT c1sec).offerGroupsCount ∧
      (canonicalT c1sec).offerGroupsCount = ((ogElemsT (metaOfS c1sec)).length : Int) :=
  c1_count_raw_length (by rfl) (by rfl)

/-- C2 (counterexample): normalization DOES raise for malformed sections -
a non-object entry of the located sections list raises `AttributeError` at
`sec.get("section")`, and a non-object entry of the offerGroups array
raises `AttributeError` at `og.get("metadata")` in the texture loop (which,
unlike the stackRanks loop, has no `isinstance` guard). -/
theorem c2_counterexample :
    normalize_section (JSON.str "x") = .error .attributeError ∧
    normalize_section c2bad = .error .attributeError :=
  ⟨rfl, rfl⟩

/-- C2 (amended): normalization returns a CanonicalSection and never raises
for every section that is an object whose accessed containers are
well-typed where truthy (wrapper/metadata/background objects, offer-group
entries objects, candidates objects with hashable keys and string
startDates); fields may freely be missing or falsy. -/
theorem c2_wf_total {sec : JSON} (hwf : wfSection sec = true) :
    ∃ c, normalize_section sec = .ok c :=
  ⟨canonicalT sec, normalize_section_eq hwf⟩

/-- C2 (witness): the amended totality at a bare section with only a null
`title`. -/
theorem c2_wf_total_witness : ∃ c, normalize_section c2wit = .ok c :=
  c2_wf_total (by rfl)

/-- C7 (counterexample): the claim resolves the base by key PRESENCE, but
the code uses Python truthiness - on a section whose `section` key holds an
empty dict the code resolves the base to the `content` value, while the
presence-based reading yields the empty dict. -/
theorem c7_counterexample :
    resolveBase c7sec = .ok (JSON.obj [("displayName", JSON.str "x")]) ∧
    resolveBaseSpecC7 c7sec = JSON.obj [] ∧
    JSON.obj [("displayName", JSON.str "x")] ≠ JSON.obj [] :=
  ⟨rfl, rfl, by decide⟩

/-- C7 (amended): the effective base is the first TRUTHY of the `section`
and `content` values, else the raw section itself, and the metadata is the
first truthy of the base's and the wrapper's `metadata`, else the empty
dict (first truthy wins, in that priority). -/
theorem c7_truthy_resolution {sec : JSON} (hs : isObj sec = true) :
    (truthy (jget sec "section") = true → resolveBase sec = .ok (jget sec "section")) ∧
    (truthy (jget sec "section") = false → truthy (jget sec "content") = true →
      resolveBase sec = .ok (jget sec "content")) ∧
    (truthy (jget sec "section") = false → truthy (jget sec "content") = false →
      resolveBase sec = .ok sec) ∧
    ∀ base, isObj base = true →
      (truthy (jget base "metadata") = true →
        resolveMeta sec base = .ok (jget base "metadata")) ∧
      (truthy (jget base "metadata") = false → truthy (jget sec "metadata") = true →
        resolveMeta sec base = .ok (jget sec "metadata")) ∧
      (truthy (jget base "metadata") = false → truthy (jget sec "metadata") = false →
        resolveMeta sec base = .ok (.obj [])) := by
  refine ⟨fun h1 => ?_, fun h1 h2 => ?_, fun h1 h2 => ?_,
    fun base hb => ⟨fun h1 => ?_, fun h1 h2 => ?_, fun h1 h2 => ?_⟩⟩
  · rw [resolveBase_eq hs]
    simp [baseOf, h1]
  · rw [resolveBase_eq hs]
    simp [baseOf, h1, h2]
  · rw [resolveBase_eq hs]
    simp [baseOf, h1, h2]
  · rw [resolveMeta_eq hs hb]
    simp [metaOf, h1]
  · rw [resolveMeta_eq hs hb]
    simp [metaOf, h1, h2]
  · rw [resolveMeta_eq hs hb]
    simp [metaOf, h1, h2]

/-- C7 (witness): on a section with a truthy `section` wrapper, the base
resolves to that wrapper. -/
theorem c7_truthy_resolution_witness :
    resolveBase c7wit = .ok (jget c7wit "section") :=
  (c7_truthy_resolution (by rfl)).1 (by rfl)

/-- C9 (counterexample): the claim falls back to the nested metadata's
`stackRanks` only when the direct field is ABSENT, but the code tests
truthiness (`if not ranks`) - an offer group with a present-but-EMPTY
direct `stackRanks` list falls back in the code and collects the metadata
candidate, while the claimed policy collects nothing. -/
theorem c9_counterexample :
    ogRanks c9og = .ok [c9rank] ∧ ogRanksSpecC9 c9og = [] ∧
    ([c9rank] : List JSON) ≠ [] :=
  ⟨rfl, rfl, by simp⟩

/-- C9 (amended): the flat candidate sequence is the section-level,
base-level and metadata-level `stackRanks` lists concatenated in that
order, followed by each offer group's contribution in offer-group order,
where an offer group contributes its own `stackRanks` when that value is
truthy and otherwise falls back to its metadata's `stackRanks` (fallback on
falsy, not only on absence). -/
theorem c9_collection_order {sec base meta : JSON} (hs : isObj sec = true)
    (hb : isObj base = true) (hm : isObj meta = true)
    (hogv : okOrArrB (jget meta "offerGroups") = true)
    (hogs : ∀ og ∈ ogElemsT meta, isObj og = true →
      okOrObjB (jget og "metadata") = true) :
    collectStackRanks sec base meta =
      .ok (listElems (jget sec "stackRanks") ++ listElems (jget base "stackRanks") ++
        listElems (jget meta "stackRanks") ++ ((ogElemsT meta).map ogRanksT).flatten) :=
  collectStackRanks_eq hs hb hm hogv hogs

/-- C9 (witness): the collection order at a concrete section used as its
own base, with empty metadata. -/
theorem c9_collection_order_witness :
    collectStackRanks c9wit c9wit (JSON.obj []) =
      .ok (listElems (jget c9wit "stackRanks") ++ listElems (jget c9wit "stackRanks") ++
        listElems (jget (JSON.obj []) "stackRanks") ++
        ((ogElemsT (JSON.obj [])).map ogRanksT).flatten) :=
  c9_collection_order (by rfl) (by rfl) (by rfl) (by rfl)
    (by
      intro og hog
      rw [show ogElemsT (JSON.obj []) = [] from rfl] at hog
      exact absurd hog (List.not_mem_nil og))

/-- C3: for every `(context, productTag)` group produced by the grouping
loop, the derived windows are sorted ascending by startDate, each
non-final window's endDate equals the next window's startDate, and the
last window's endDate is null - so no group is ever chained into another
(every group's own chain ends with null). -/
theorem c3_group_windows_sorted_chained {cands : List JSON}
    {gs : List (GroupKey × List JSON)} {k : GroupKey} {items sorted : List JSON}
    (hg : buildGroups cands [] = .ok gs) (hmem : (k, items) ∈ gs)
    (hstr : ∀ s ∈ items, sortable s = true)
    (hsort : sortRanksM items = .ok sorted) :
    ((chainWindows sorted).map Window.startDate).Pairwise
        (fun a b => jsonStrLe a b = true) ∧
    (∀ i w w', (chainWindows sorted)[i]? = some w →
      (chainWindows sorted)[i + 1]? = some w' → w.endDate = w'.startDate) ∧
    (∀ w, (chainWindows sorted).getLast? = some w → w.endDate = .null) := by
  rw [sortRanksM_eq hstr] at hsort
  injection hsort with hsort
  subst hsort
  refine ⟨?_, fun i w w' hw hw' => chainWindows_chained _ i w w' hw hw',
    fun w hw => chainWindows_last _ w hw⟩
  rw [chainWindows_map_start]
  rw [List.pairwise_map]
  have hsorted : SortedRanks (sortRanksP items) := sortRanksP_sorted items
  refine List.Pairwise.imp_of_mem ?_ hsorted
  intro a b ha hb hle
  have hsa : sortable a = true := hstr a ((sortRanksP_perm items).mem_iff.mp ha)
  have hsb : sortable b = true := hstr b ((sortRanksP_perm items).mem_iff.mp hb)
  have h1 : sdOf a = .str (sdKey a) := sdKey_of_sortable hsa
  have h2 : sdOf b = .str (sdKey b) := sdKey_of_sortable hsb
  rw [h1, h2]
  simpa [jsonStrLe] using hle

/-- C3 (witness): the spec's scenario - candidates dated 2025-09-10,
sentinel and 2025-09-20, all in group `(context = "A", productTag = null)`,
produce the chained windows (10th to 20th, then 20th to null). -/
theorem c3_group_windows_witness :
    ((chainWindows [w3a, w3b]).map Window.startDate).Pairwise
        (fun a b => jsonStrLe a b = true) ∧
    (∀ i w w', (chainWindows [w3a, w3b])[i]? = some w →
      (chainWindows [w3a, w3b])[i + 1]? = some w' → w.endDate = w'.startDate) ∧
    (∀ w, (chainWindows [w3a, w3b]).getLast? = some w → w.endDate = .null) :=
  @c3_group_windows_sorted_chained [w3a, w3sent, w3b]
    [((JSON.str "A", JSON.null), [w3a, w3b])]
    ((JSON.str "A", JSON.null)) [w3a, w3b] [w3a, w3b]
    (by rfl) (by simp) (by decide) (by rfl)

/-- C4: a candidate whose startDate is missing (falsy) or equal to the
sentinel `2023-01-01T00:00:00.000Z` is never admitted into any group, and
consequently no derived window of any group carries a missing or sentinel
startDate. -/
theorem c4_sentinel_never_admitted {cands : List JSON}
    {gs : List (GroupKey × List JSON)} (hg : buildGroups cands [] = .ok gs) :
    (∀ g ∈ gs, ∀ s ∈ g.2, truthy (jget s "startDate") = true ∧
      isStrEq (jget s "startDate") SENTINEL = false) ∧
    (∀ g ∈ gs, ∀ sorted, sortRanksM g.2 = .ok sorted →
      ∀ w ∈ chainWindows sorted, truthy w.startDate = true ∧
        isStrEq w.startDate SENTINEL = false) := by
  have hinv := buildGroups_item_inv hg
  constructor
  · intro g hgmem s hs
    rcases hinv g hgmem s hs with ⟨g0, hg0, _⟩ | ⟨_, h1, h2⟩
    · simp at hg0
    · exact ⟨h1, h2⟩
  · intro g hgmem sorted hsort w hw
    obtain ⟨s, hsmem, hval⟩ := chainWindows_start_mem hw
    have hs2 : s ∈ g.2 := sortRanksM_mem hsort s hsmem
    rcases hinv g hgmem s hs2 with ⟨g0, hg0, _⟩ | ⟨_, h1, h2⟩
    · simp at hg0
    · rw [hval]
      exact ⟨h1, h2⟩

/-- C4 (witness): the exclusion property at a concrete candidate list
holding one admitted date, one missing date and one sentinel. -/
theorem c4_sentinel_witness :
    (∀ g ∈ [((JSON.str "B", JSON.null), [w4a])], ∀ s ∈ g.2,
      truthy (jget s "startDate") = true ∧
      isStrEq (jget s "startDate") SENTINEL = false) ∧
    (∀ g ∈ [((JSON.str "B", JSON.null), [w4a])], ∀ sorted,
      sortRanksM g.2 = .ok sorted →
      ∀ w ∈ chainWindows sorted, truthy w.startDate = true ∧
        isStrEq w.startDate SENTINEL = false) :=
  @c4_sentinel_never_admitted [w4a, w4miss, w4sent] _ (by rfl)

/-- C5: for every well-formed section, the normalized `stackRankStart` is
null when no windows were derived, and otherwise is the lexicographically
(hence chronologically) minimum startDate across all the section's derived
windows: it is one of the window startDates and lexicographically at most
each of them. -/
theorem c5_stackRankStart_is_min {sec : JSON} {c : CanonicalSection}
    {ws : List Window} (hwf : wfSection sec = true)
    (hc : normalize_section sec = .ok c) (hws : derivedWindows sec = .ok ws) :
    (ws = [] → c.stackRankStart = .null) ∧
    (ws ≠ [] → ∃ d : String, c.stackRankStart = .str d ∧
      (∃ w ∈ ws, w.startDate = .str d) ∧
      ∀ w ∈ ws, ∃ e : String, w.startDate = .str e ∧ strLe d e = true) := by
  rw [normalize_section_eq hwf] at hc
  injection hc with hc
  subst hc
  rw [derivedWindows_eq hwf] at hws
  injection hws with hws
  subst hws
  have hstr : ∀ w ∈ windowsT sec, isStrVal w.startDate = true :=
    fun w hw => (wf_windows_start hwf w hw).2
  exact startMinT_spec hstr

/-- C5 (witness): the minimum property at the concrete three-candidate
section (minimum 2025-09-10, sentinel excluded). -/
theorem c5_stackRankStart_witness :
    (windowsT c5sec = [] → (canonicalT c5sec).stackRankStart = .null) ∧
    (windowsT c5sec ≠ [] → ∃ d : String,
      (canonicalT c5sec).stackRankStart = .str d ∧
      (∃ w ∈ windowsT c5sec, w.startDate = .str d) ∧
      ∀ w ∈ windowsT c5sec, ∃ e : String, w.startDate = .str e ∧ strLe d e = true) :=
  @c5_stackRankStart_is_min c5sec (canonicalT c5sec) (windowsT c5sec) (by rfl) (by rfl) (by rfl)

/-- C10: a well-formed section with no `section`/`content` wrapper resolves
its base to itself, so its top-level `stackRanks` list is collected twice
(once as the section-level and once as the base-level source); every
admitted candidate of that list therefore lands at least twice in its
`(context, productTag)` group, and the derived windows include a window
whose endDate equals its own startDate, namely that candidate's. -/
theorem c10_top_level_ranks_collected_twice {sec : JSON} {sr : List JSON}
    {s : JSON} (hwf : wfSection sec = true)
    (hsec : jget sec "section" = .null) (hcon : jget sec "content" = .null)
    (hsr : jget sec "stackRanks" = .arr sr)
    (hs : s ∈ sr) (hadm : admitted s = true) :
    baseOf sec = sec ∧
    (∃ rest, candidatesT sec = sr ++ sr ++ rest) ∧
    2 ≤ (findGroup (groupsOfT sec) (keyOf s)).count s ∧
    ∃ w ∈ windowsT sec, w.endDate = w.startDate ∧
      w.startDate = jget s "startDate" := by
  have hbase : baseOf sec = sec := by
    rw [baseOf, hsec, hcon]
    simp [truthy]
  have hcand : candidatesT sec = sr ++ sr ++
      (listElems (jget (metaOfS sec) "stackRanks") ++
        ((ogElemsT (metaOfS sec)).map ogRanksT).flatten) := by
    rw [candidatesT, hbase, candListT, hsr]
    simp [listElems]
  have hsmem : s ∈ candidatesT sec := by
    rw [hcand]
    simp [hs]
  have hwfs : wfRank s = true := wf_cands_wfRank hwf s hsmem
  have hke : keyEq (keyOf s) (keyOf s) = true := keyEq_refl_of_wfRank hwfs
  have hcount : 2 ≤ (candidatesT sec).count s := by
    rw [hcand]
    have h1 : 0 < sr.count s := List.count_pos_iff.mpr hs
    simp only [List.count_append]
    omega
  have hge := @groupsT_count_ge (candidatesT sec) [] s hadm hke
  have hfg0 : findGroup [] (keyOf s) = [] := rfl
  rw [hfg0] at hge
  simp only [List.count_nil, Nat.add_zero] at hge
  have hcount2 : 2 ≤ (findGroup (groupsOfT sec) (keyOf s)).count s := by
    rw [groupsOfT]
    omega
  refine ⟨hbase, ⟨_, hcand⟩, hcount2, ?_⟩
  have hfgne : findGroup (groupsOfT sec) (keyOf s) ≠ [] := by
    intro he
    rw [he] at hcount2
    simp at hcount2
  obtain ⟨g, hgmem, hgitems⟩ := findGroup_mem hfgne
  have hitems : ∀ t ∈ g.2, sortable t = true :=
    fun t ht => (wf_group_items hwf g hgmem t ht).2.2
  have hsorted := sortRanksP_sorted g.2
  have hcount3 : 2 ≤ (sortRanksP g.2).count s := by
    rw [(sortRanksP_perm g.2).count_eq]
    rw [hgitems]
    exact hcount2
  have hcountP : 2 ≤ ((sortRanksP g.2).countP fun x => sdKey x == sdKey s) := by
    calc 2 ≤ (sortRanksP g.2).count s := hcount3
      _ = (sortRanksP g.2).countP (· == s) := List.count_eq_countP s _
      _ ≤ _ := by
        refine List.countP_mono_left ?_
        intro x hx hxs
        have : x = s := by simpa using hxs
        subst this
        simp
  obtain ⟨i, x, y, hx, hy, hxd, hyd⟩ := sorted_two_adjacent hsorted hcountP
  have hwget := chainWindows_get (sortRanksP g.2) i x y hx hy
  have hwmem : (⟨sdOf x, sdOf y⟩ : Window) ∈ chainWindows (sortRanksP g.2) :=
    mem_of_getElem?_some hwget
  have hxs : sortable x = true :=
    hitems x ((sortRanksP_perm g.2).mem_iff.mp (mem_of_getElem?_some hx))
  have hys : sortable y = true :=
    hitems y ((sortRanksP_perm g.2).mem_iff.mp (mem_of_getElem?_some hy))
  have hss : sortable s = true := by
    have hsing : s ∈ g.2 := by
      rw [hgitems]
      exact List.count_pos_iff.mp (by omega)
    exact hitems s hsing
  refine ⟨⟨sdOf x, sdOf y⟩, windowsTG_mem_intro hgmem hwmem, ?_, ?_⟩
  · show sdOf y = sdOf x
    rw [show sdOf y = jget y "startDate" from rfl,
      show sdOf x = jget x "startDate" from rfl,
      sdKey_of_sortable hxs, sdKey_of_sortable hys, hxd, hyd]
  · show sdOf x = jget s "startDate"
    rw [show sdOf x = jget x "startDate" from rfl,
      sdKey_of_sortable hxs, sdKey_of_sortable hss, hxd]

/-- C10 (witness): the duplication at a concrete section whose single
top-level candidate yields a window whose endDate equals its startDate. -/
theorem c10_top_level_witness :
    baseOf c10sec = c10sec ∧
    (∃ rest, candidatesT c10sec = [c10rank] ++ [c10rank] ++ rest) ∧
    2 ≤ (findGroup (groupsOfT c10sec) (keyOf c10rank)).count c10rank ∧
    ∃ w ∈ windowsT c10sec, w.endDate = w.startDate ∧
      w.startDate = jget c10rank "startDate" :=
  @c10_top_level_ranks_collected_twice c10sec [c10rank] c10rank (by rfl) (by rfl) (by rfl) (by rfl) (by simp) (by rfl)

theorem bucketOf_some_mem {b : List (String × List CanonicalSection)}
    {d : String} {l : List CanonicalSection} (h : bucketOf b d = some l) :
    ∃ e ∈ b, e.2 = l := by
  cases hf : b.find? (fun e => e.1 = d) with
  | none =>
    rw [bucketOf, hf] at h
    simp at h
  | some e =>
    rw [bucketOf, hf] at h
    simp only [Option.map_some', Option.getD_some, Option.some_inj] at h
    exact ⟨e, List.mem_of_find?_eq_some hf, h⟩

/-- C8: date bucketing excludes a section from every bucket exactly when
its `stackRankStart` has no usable day key (null, non-string or unparsable
timestamps all yield `None`, never an error), and each day's bucket is
precisely the order-preserving filter of the input sequence by that day
key, so included sections keep their relative input order. -/
theorem c8_bucketing_excludes_and_orders (rows : List CanonicalSection) :
    (∀ d : String, d ≠ "" → bucketOf (buildBucket rows []) d =
      (if (rows.filter fun r => dayKeyOf r == some d).isEmpty then none
       else some (rows.filter fun r => dayKeyOf r == some d))) ∧
    ∀ r ∈ rows, (∀ e ∈ buildBucket rows [], r ∉ e.2) ↔
      (dayKeyOf r = none ∨ dayKeyOf r = some "") := by
  constructor
  · intro d hd
    exact buildBucket_lookup rows [] d hd
  · intro r hr
    constructor
    · intro hex
      by_contra hcon
      push_neg at hcon
      obtain ⟨hnone, hempty⟩ := hcon
      cases hk : dayKeyOf r with
      | none => exact hnone hk
      | some d =>
        have hdne : d ≠ "" := by
          intro he
          subst he
          exact hempty hk
        have h1 := buildBucket_lookup rows [] d hdne
        have hrfilter : r ∈ rows.filter (fun r => dayKeyOf r == some d) :=
          List.mem_filter.mpr ⟨hr, by simp [hk]⟩
        have hfne : (rows.filter fun r => dayKeyOf r == some d).isEmpty = false := by
          cases hfe : (rows.filter fun r => dayKeyOf r == some d) with
          | nil => rw [hfe] at hrfilter; simp at hrfilter
          | cons a l => simp [hfe]
        rw [show bucketOf ([] : List (String × List CanonicalSection)) d = none
          from rfl] at h1
        simp only [hfne, Bool.false_eq_true, if_false] at h1
        obtain ⟨e, hemem, heval⟩ := bucketOf_some_mem h1
        refine hex e hemem ?_
        rw [heval]
        exact hrfilter
    · intro hk e he hre
      rcases buildBucket_item_inv e he r hre with ⟨e0, he0, _⟩ | ⟨_, d, hd1, hd2⟩
      · simp at he0
      · rcases hk with hk | hk
        · rw [hk] at hd1
          exact Option.noConfusion hd1
        · rw [hk] at hd1
          injection hd1 with hd1
          exact hd2 hd1.symm
